import Mathlib

/-!
A verification development for the multi-round drone inspection planner
(trajectory entities, Christofides-style TSP solving, trajectory
generation, greedy-and-prune coverage planning).  The definitions are a
shallow embedding of the Python sources under `src/`:

* Python numbers (floats / ints) are modelled as rationals `ℚ`;
* a Python `assert` failure or raised exception is modelled by an
  `Option` result, `none` meaning "the source aborts";
* the networkx graph built by `AoI.__build_graph` is modelled by the
  `Graph` structure below over node indexes, keeping the node and edge
  insertion orders as lists;
* networkx library calls used by the sources
  (`minimum_spanning_tree`, `max_weight_matching`, `is_eulerian`,
  `eulerian_circuit`) are modelled from their documented behaviour by
  executable Lean functions.
-/

namespace TrajPlan

/-- A drone (`trajenties.Drone`): `autonomy` in seconds, `speed` in m/s. -/
structure Drone where
  autonomy : ℚ
  speed : ℚ

/-- The weighted geometric graph built by `AoI.__build_graph`:
`nodes` (insertion order), undirected `edges` (insertion order),
symmetric Euclidean edge weights `w`, per-node hovering times `hover`
(0 on depots) and the `depot` tag of each node. -/
structure Graph where
  nodes : List ℕ
  edges : List (ℕ × ℕ)
  w : ℕ → ℕ → ℚ
  hover : ℕ → ℚ
  isDepot : ℕ → Bool

/-- A tour (`trajenties.Tour`), kept as its ordered list of directed
edges over graph node indexes (the `edges_w_indexes` field). -/
structure Tour where
  edges : List (ℕ × ℕ)
deriving DecidableEq

/-- `Tour.targets_indexes`: the ordered first endpoints of the tour's
edges that are not depots (collected by `Tour.__init__`). -/
def Tour.targets_indexes (dep : ℕ → Bool) (t : Tour) : List ℕ :=
  (t.edges.map Prod.fst).filter (fun n => !dep n)

/-- `Tour.depot_index`: `Tour.__init__` assigns `depot_index` each time a
first edge endpoint is a depot, so the last depot occurrence wins. -/
def Tour.depot_index (dep : ℕ → Bool) (t : Tour) : ℕ :=
  ((t.edges.map Prod.fst).filter (fun n => dep n)).getLastD 0

/-- `Tour.len_tour`: total tour length, the sum of edge weights. -/
def Tour.len_tour (g : Graph) (t : Tour) : ℚ :=
  (t.edges.map (fun e => g.w e.1 e.2)).sum

/-- `Tour.hovering_time_tour`: sum of the node weights (hovering times)
of the second endpoint of every edge. -/
def Tour.hovering_time_tour (g : Graph) (t : Tour) : ℚ :=
  (t.edges.map (fun e => g.hover e.2)).sum

/-- `Tour.time_tour`: length over speed plus total hovering time. -/
def Tour.time_tour (g : Graph) (t : Tour) (speed : ℚ) : ℚ :=
  t.len_tour g / speed + t.hovering_time_tour g

/-- `utility.build_tour_from_ordered_nodes`: close the node sequence
into a cycle of directed edges. -/
def build_tour_from_ordered_nodes (ns : List ℕ) : List (ℕ × ℕ) :=
  match ns with
  | [] => []
  | n0 :: _ => ns.zip (ns.tail ++ [n0])

/-- Keep the first occurrence of every element, given an accumulator of
elements already seen (the membership-test accumulation idiom used by
`Christofides.shorted_tour`, and the model of a Python `set`'s distinct
elements elsewhere). -/
def dedupKeepFirst (seen : List ℕ) : List ℕ → List ℕ
  | [] => []
  | n :: ns => if seen.contains n then dedupKeepFirst seen ns
               else n :: dedupKeepFirst (n :: seen) ns

/-- Multigraph degree of a vertex in an edge list (parallel edges count
separately, as in the networkx `MultiGraph` built by `Christofides`). -/
def multidegree (E : List (ℕ × ℕ)) (v : ℕ) : ℕ :=
  (E.filter (fun e => e.1 == v)).length + (E.filter (fun e => e.2 == v)).length

/-- One breadth step of reachability over an undirected edge list. -/
def expandReach (E : List (ℕ × ℕ)) (acc : List ℕ) : List ℕ :=
  acc ++ E.filterMap (fun e => if acc.contains e.1 then some e.2 else none)
      ++ E.filterMap (fun e => if acc.contains e.2 then some e.1 else none)

/-- Vertices reachable from `s` along `E` within `fuel` steps. -/
def reach (E : List (ℕ × ℕ)) (fuel : ℕ) (s : ℕ) : List ℕ :=
  (expandReach E)^[fuel] [s]

/-- Connectivity of the vertex list `V` under the edge list `E`
(model of `networkx.is_connected`; the null graph is not connected). -/
def connectedB (V : List ℕ) (E : List (ℕ × ℕ)) : Bool :=
  match V with
  | [] => false
  | v :: _ => V.all (fun u => (reach E V.length v).contains u)

/-- Stable ascending insertion sort by a rational key (the edge sort
inside networkx Kruskal; ties keep the input order). -/
def sortByKey {α : Type} (key : α → ℚ) : List α → List α
  | [] => []
  | a :: as => insertKey key a (sortByKey key as)
where insertKey (key : α → ℚ) (a : α) : List α → List α
  | [] => [a]
  | b :: bs => if key a ≤ key b then a :: b :: bs else b :: insertKey key a bs

/-- Kruskal minimum spanning tree on the edge list, modelling
`networkx.minimum_spanning_tree` (default Kruskal algorithm): scan edges
in ascending weight order and keep an edge iff its endpoints are not yet
connected by the kept edges. -/
def kruskal_mst (g : Graph) : List (ℕ × ℕ) :=
  (sortByKey (fun e => g.w e.1 e.2) g.edges).foldl
    (fun acc e => if (reach acc (acc.length + 1) e.1).contains e.2 then acc
                  else acc ++ [e]) []

/-- `Christofides.odd_nodes`: the vertices of odd degree in the MST,
scanned in the graph's node order. -/
def odd_nodes (V : List ℕ) (E : List (ℕ × ℕ)) : List ℕ :=
  V.filter (fun v => multidegree E v % 2 == 1)

/-- The edge list of the induced subgraph on the odd-degree MST
vertices (`graph.subgraph(odd_nodes)` in `Christofides.compute`). -/
def oddEdges (g : Graph) : List (ℕ × ℕ) :=
  let odd := odd_nodes g.nodes (kruskal_mst g)
  g.edges.filter (fun e => odd.contains e.1 && odd.contains e.2)

/-- A list of edges is a matching: no endpoint repeats. -/
def isMatchingB (M : List (ℕ × ℕ)) : Bool :=
  decide (M.flatMap (fun e => [e.1, e.2])).Nodup

/-- Sum of reciprocal edge weights (the weight reversal performed by
`Christofides.min_weight_matching` before calling the maximiser). -/
def recipSum (g : Graph) (M : List (ℕ × ℕ)) : ℚ :=
  (M.map (fun e => 1 / g.w e.1 e.2)).sum

/-- `Christofides.min_weight_matching`, with the library call
`networkx.max_weight_matching` modelled by its contract: return a
matching of maximum total (here reciprocal) weight. -/
def min_weight_matching (g : Graph) (E : List (ℕ × ℕ)) : List (ℕ × ℕ) :=
  (E.sublists.filter isMatchingB).foldl
    (fun best M => if recipSum g best < recipSum g M then M else best) []

/-- The multigraph assembled in `Christofides.compute`:
MST edges together with the matching edges. -/
def eu_edges_of (g : Graph) : List (ℕ × ℕ) :=
  kruskal_mst g ++ min_weight_matching g (oddEdges g)

/-- The endpoints occurring in an edge list, each once. -/
def nodesOfEdges (E : List (ℕ × ℕ)) : List ℕ :=
  dedupKeepFirst [] (E.flatMap (fun e => [e.1, e.2]))

/-- Model of `networkx.is_eulerian`: connected and every degree even. -/
def is_eulerian (E : List (ℕ × ℕ)) : Bool :=
  let V := nodesOfEdges E
  connectedB V E && V.all (fun v => multidegree E v % 2 == 0)

/-- Remove the first edge incident to `v`, returning the opposite
endpoint and the remaining edges. -/
def removeFirstEdgeAt (E : List (ℕ × ℕ)) (v : ℕ) : Option (ℕ × List (ℕ × ℕ)) :=
  match E with
  | [] => none
  | e :: rest =>
    if e.1 == v then some (e.2, rest)
    else if e.2 == v then some (e.1, rest)
    else match removeFirstEdgeAt rest v with
      | some (u, rest') => some (u, e :: rest')
      | none => none

/-- Fuelled Hierholzer walk: follow unused edges, backtracking exhausted
vertices onto the circuit. -/
def hierholzer : ℕ → List (ℕ × ℕ) → List ℕ → List ℕ → Option (List ℕ)
  | 0, _, _, _ => none
  | fuel + 1, E, stack, circuit =>
    match stack with
    | [] => some circuit
    | v :: rest =>
      match removeFirstEdgeAt E v with
      | some (u, E') => hierholzer fuel E' (u :: v :: rest) circuit
      | none => hierholzer fuel E rest (v :: circuit)

/-- Model of `networkx.eulerian_circuit`: the edges of an Eulerian
circuit starting at `s`. -/
def eulerian_circuit (E : List (ℕ × ℕ)) (s : ℕ) : Option (List (ℕ × ℕ)) :=
  match hierholzer (2 * E.length + 2) E [s] [] with
  | some ns => some (ns.zip ns.tail)
  | none => none

/-- `Christofides.shorted_tour`: shortcut an Eulerian tour by dropping
repeated nodes (first occurrences kept) and closing the cycle. -/
def shorted_tour (eu_tour : List (ℕ × ℕ)) : List (ℕ × ℕ) :=
  build_tour_from_ordered_nodes (dedupKeepFirst [] (eu_tour.map Prod.fst))

/-- `Christofides.compute`: MST, matching on odd vertices, Eulerian
check (`assert nx.is_eulerian`, `none` on failure), Eulerian circuit,
shortcut. -/
def christofides_compute (g : Graph) (depot_index : ℕ) : Option (List (ℕ × ℕ)) :=
  if is_eulerian (eu_edges_of g) then
    (eulerian_circuit (eu_edges_of g) depot_index).map shorted_tour
  else none

/-- `DroneTrajGeneration.__remove_nodes`: drop every depot other than
the chosen one, and every target whose hovering time plus round-trip
flight time from the depot strictly exceeds the drone's autonomy; edges
incident to removed nodes disappear with them. -/
def remove_nodes (g : Graph) (depot_index : ℕ) (drone : Drone) : Graph :=
  let keep : ℕ → Bool := fun n =>
    if n == depot_index then true
    else if g.isDepot n then false
    else decide (g.hover n + 2 * g.w depot_index n / drone.speed ≤ drone.autonomy)
  { g with
    nodes := g.nodes.filter keep
    edges := g.edges.filter (fun e => keep e.1 && keep e.2) }

/-- The growth loop of `DroneTrajGeneration.__compute_subtours`: keep
extending the sub-tour one TSP node at a time, emitting each extension
whose time cost stays strictly below autonomy, and stop at the first
extension that does not. -/
def grow_subtours (g : Graph) (drone : Drone) (depot_index : ℕ) :
    List (ℕ × ℕ) → ℕ → List ℕ → List Tour
  | _, _, [] => []
  | cur, last, n :: rest =>
    let cur' := cur ++ [(last, n)]
    let t : Tour := ⟨cur' ++ [(n, depot_index)]⟩
    if t.time_tour g drone.speed < drone.autonomy then
      t :: grow_subtours g drone depot_index cur' n rest
    else []

/-- `DroneTrajGeneration.__compute_subtours`: the single-target tour for
offset `i` is asserted feasible (`none` models the assertion failing),
then larger sub-tours are grown while they stay feasible. -/
def compute_subtours (g : Graph) (drone : Drone) (depot_index : ℕ)
    (tsp_nodes : List ℕ) (i : ℕ) : Option (List Tour) :=
  let first := tsp_nodes.getD i 0
  let t0 : Tour := ⟨[(depot_index, first), (first, depot_index)]⟩
  if t0.time_tour g drone.speed < drone.autonomy then
    some (t0 :: grow_subtours g drone depot_index [(depot_index, first)] first
            (tsp_nodes.drop (i + 1)))
  else none

/-- The `output_tours.extend` loop of
`DroneTrajGeneration.compute_trajectories` over all starting offsets. -/
def collect_subtours (g : Graph) (drone : Drone) (depot_index : ℕ)
    (tsp_nodes : List ℕ) : List ℕ → Option (List Tour)
  | [] => some []
  | i :: is =>
    (compute_subtours g drone depot_index tsp_nodes i).bind fun ts =>
      (collect_subtours g drone depot_index tsp_nodes is).bind fun rest =>
        some (ts ++ rest)

/-- `DroneTrajGeneration.compute_trajectories`: assert the depot is a
depot, prune unreachable nodes, require more than one surviving node,
run Christofides, and slice the TSP order into feasible sub-tours.
Sub-tour costs are measured on the original graph `g`
(`Tour.from_graph_indexes(self.aoi, ...)` in the source). -/
def compute_trajectories (g : Graph) (drone : Drone) (depot_index : ℕ) :
    Option (List Tour) :=
  if g.isDepot depot_index then
    let graph := remove_nodes g depot_index drone
    if 1 < graph.nodes.length then
      (christofides_compute graph depot_index).bind fun tsp_tour =>
        let tsp_nodes := tsp_tour.map Prod.fst
        if tsp_nodes.length == graph.nodes.length then
          collect_subtours g drone depot_index tsp_nodes
            (List.range' 1 (tsp_nodes.length - 1))
        else none
    else none
  else none

lemma grow_subtours_time_lt (g : Graph) (drone : Drone) (depot_index : ℕ) :
    ∀ (rest : List ℕ) (cur : List (ℕ × ℕ)) (last : ℕ),
      ∀ t ∈ grow_subtours g drone depot_index cur last rest,
        t.time_tour g drone.speed < drone.autonomy := by
  intro rest
  induction rest with
  | nil => intro cur last t ht; simp [grow_subtours] at ht
  | cons n rest ih =>
    intro cur last t ht
    simp only [grow_subtours] at ht
    split at ht
    · rcases List.mem_cons.mp ht with h | h
      · subst h; assumption
      · exact ih _ _ t h
    · simp at ht

lemma compute_subtours_time_lt (g : Graph) (drone : Drone) (depot_index : ℕ)
    (tsp_nodes : List ℕ) (i : ℕ) (ts : List Tour)
    (h : compute_subtours g drone depot_index tsp_nodes i = some ts) :
    ∀ t ∈ ts, t.time_tour g drone.speed < drone.autonomy := by
  intro t ht
  simp only [compute_subtours] at h
  split at h
  · cases h
    rcases List.mem_cons.mp ht with h' | h'
    · subst h'; assumption
    · exact grow_subtours_time_lt g drone depot_index _ _ _ t h'
  · cases h

lemma collect_subtours_time_lt (g : Graph) (drone : Drone) (depot_index : ℕ)
    (tsp_nodes : List ℕ) :
    ∀ (is : List ℕ) (ts : List Tour),
      collect_subtours g drone depot_index tsp_nodes is = some ts →
      ∀ t ∈ ts, t.time_tour g drone.speed < drone.autonomy := by
  intro is
  induction is with
  | nil => intro ts h t ht; simp only [collect_subtours] at h; cases h; simp at ht
  | cons i is ih =>
    intro ts h t ht
    simp only [collect_subtours, Option.bind_eq_some] at h
    obtain ⟨ts1, hc, ts2, hr, heq⟩ := h
    cases heq
    rcases List.mem_append.mp ht with h' | h'
    · exact compute_subtours_time_lt g drone depot_index tsp_nodes i ts1 hc t h'
    · exact ih ts2 hr t h'

/-- C1. Every tour in a list successfully returned by
`DroneTrajGeneration.compute_trajectories` (depot accepted, at least one
target surviving the pre-filter, no internal assertion failing) has a
time cost at the drone's speed strictly below the drone's autonomy. -/
theorem compute_trajectories_feasible (g : Graph) (drone : Drone)
    (depot_index : ℕ) (ts : List Tour)
    (h : compute_trajectories g drone depot_index = some ts) :
    ∀ t ∈ ts, t.time_tour g drone.speed < drone.autonomy := by
  intro t ht
  simp only [compute_trajectories] at h
  split at h
  · split at h
    · rw [Option.bind_eq_some] at h
      obtain ⟨tsp_tour, _, h⟩ := h
      split at h
      · exact collect_subtours_time_lt g drone depot_index _ _ ts h t ht
      · cases h
    · cases h
  · cases h

/-- The two-node scenario: depot `(0,0)` is node 1, target `(1,0)` is
node 0 (targets are indexed before depots by `AoI.__build_graph`), so
the Euclidean edge weight is 1, the hovering time 0. -/
def G1 : Graph :=
  { nodes := [0, 1], edges := [(0, 1)],
    w := fun _ _ => 1, hover := fun _ => 0, isDepot := fun n => n == 1 }

lemma G1_eval :
    compute_trajectories G1 ⟨3, 1⟩ 1 = some [⟨[(1, 0), (0, 1)]⟩] := by
  norm_num [compute_trajectories, remove_nodes, christofides_compute, eu_edges_of,
    kruskal_mst, sortByKey, sortByKey.insertKey, reach, expandReach, odd_nodes, oddEdges,
    min_weight_matching, isMatchingB, recipSum, multidegree, is_eulerian, nodesOfEdges,
    connectedB, eulerian_circuit, hierholzer, removeFirstEdgeAt, dedupKeepFirst,
    shorted_tour, build_tour_from_ordered_nodes, collect_subtours, compute_subtours,
    grow_subtours, Tour.time_tour, Tour.len_tour, Tour.hovering_time_tour, G1,
    List.sublists, Function.iterate_succ, Function.iterate_zero]

/-- Witness for C1: on the two-node scenario with autonomy 3 and
speed 1 the generator succeeds, and the theorem yields the strict
time bound for the returned tour. -/
theorem compute_trajectories_feasible_witness :
    compute_trajectories G1 ⟨3, 1⟩ 1 = some [⟨[(1, 0), (0, 1)]⟩] ∧
    (⟨[(1, 0), (0, 1)]⟩ : Tour).time_tour G1 (1 : ℚ) < 3 :=
  ⟨G1_eval,
   compute_trajectories_feasible G1 ⟨3, 1⟩ 1 [⟨[(1, 0), (0, 1)]⟩] G1_eval
     ⟨[(1, 0), (0, 1)]⟩ (List.mem_singleton.mpr rfl)⟩

/-- C4, evaluated at the failing input: with depot `(0,0)`, target
`(1,0)`, speed 1, hovering 0 and autonomy 2, the step-1 filter of
`__remove_nodes` keeps the target (its round-trip time `2` is not
`> autonomy`, the test being strict), yet the single-target sub-tour
costs exactly `2`, which is not `< autonomy`, so the internal
feasibility assertion of `__compute_subtours` fires
(`compute_trajectories` aborts, modelled by `none`) — contradicting the
claim that the assertion never fails and that each offset contributes a
tour. -/
theorem compute_subtours_assertion_fails :
    (remove_nodes G1 1 ⟨2, 1⟩).nodes = [0, 1] ∧
    compute_subtours G1 ⟨2, 1⟩ 1 [1, 0] 1 = none ∧
    compute_trajectories G1 ⟨2, 1⟩ 1 = none := by
  refine ⟨?_, ?_, ?_⟩ <;>
  norm_num [compute_trajectories, remove_nodes, christofides_compute, eu_edges_of,
    kruskal_mst, sortByKey, sortByKey.insertKey, reach, expandReach, odd_nodes, oddEdges,
    min_weight_matching, isMatchingB, recipSum, multidegree, is_eulerian, nodesOfEdges,
    connectedB, eulerian_circuit, hierholzer, removeFirstEdgeAt, dedupKeepFirst,
    shorted_tour, build_tour_from_ordered_nodes, collect_subtours, compute_subtours,
    grow_subtours, Tour.time_tour, Tour.len_tour, Tour.hovering_time_tour, G1,
    List.sublists, Function.iterate_succ, Function.iterate_zero]

/-- A connected allow-list scenario (`viable_paths`): three collinear
points with only the two consecutive paths viable, node 2 the depot. -/
def P3 : Graph :=
  { nodes := [0, 1, 2], edges := [(0, 1), (1, 2)],
    w := fun _ _ => 1, hover := fun _ => 0, isDepot := fun n => n == 2 }

/-- Counterexample to C5: `P3` is a connected weighted input graph, yet
the odd-degree MST vertices 0 and 2 span no edge of the graph, the
matching is therefore empty, vertex 0 keeps odd degree 1 in the
MST ∪ matching multigraph, and the Eulerian assertion of
`Christofides.compute` fails (`none`). -/
theorem christofides_eulerian_assert_fails :
    connectedB P3.nodes P3.edges = true ∧
    multidegree (eu_edges_of P3) 0 = 1 ∧
    christofides_compute P3 2 = none := by
  refine ⟨?_, ?_, ?_⟩ <;>
  norm_num [christofides_compute, eu_edges_of, kruskal_mst, sortByKey,
    sortByKey.insertKey, reach, expandReach, odd_nodes, oddEdges,
    min_weight_matching, isMatchingB, recipSum, multidegree, is_eulerian,
    nodesOfEdges, connectedB, dedupKeepFirst, P3,
    List.sublists, Function.iterate_succ, Function.iterate_zero]

lemma mem_insertKey {α : Type} (key : α → ℚ) (a x : α) :
    ∀ l : List α, x ∈ sortByKey.insertKey key a l → x = a ∨ x ∈ l := by
  intro l
  induction l with
  | nil => intro h; simpa [sortByKey.insertKey] using h
  | cons b bs ih =>
    intro h
    simp only [sortByKey.insertKey] at h
    split at h
    · rcases List.mem_cons.mp h with h | h
      · exact Or.inl h
      · exact Or.inr h
    · rcases List.mem_cons.mp h with h | h
      · exact Or.inr (by simp [h])
      · rcases ih h with h | h
        · exact Or.inl h
        · exact Or.inr (List.mem_cons_of_mem _ h)

lemma mem_sortByKey {α : Type} (key : α → ℚ) (x : α) :
    ∀ l : List α, x ∈ sortByKey key l → x ∈ l := by
  intro l
  induction l with
  | nil => intro h; simp [sortByKey] at h
  | cons b bs ih =>
    intro h
    simp only [sortByKey] at h
    rcases mem_insertKey key b x _ h with h | h
    · simp [h]
    · exact List.mem_cons_of_mem _ (ih h)

lemma kruskal_mst_subset (g : Graph) : ∀ e ∈ kruskal_mst g, e ∈ g.edges := by
  intro e he
  unfold kruskal_mst at he
  have main : ∀ (l : List (ℕ × ℕ)) (acc : List (ℕ × ℕ)),
      (∀ x ∈ acc, x ∈ g.edges) → (∀ x ∈ l, x ∈ g.edges) →
      ∀ x ∈ l.foldl (fun acc e =>
          if (reach acc (acc.length + 1) e.1).contains e.2 then acc
          else acc ++ [e]) acc, x ∈ g.edges := by
    intro l
    induction l with
    | nil => intro acc hacc _ x hx; exact hacc x hx
    | cons a as ih =>
      intro acc hacc hl x hx
      simp only [List.foldl_cons] at hx
      refine ih _ ?_ (fun y hy => hl y (List.mem_cons_of_mem _ hy)) x hx
      intro y hy
      split at hy
      · exact hacc y hy
      · rcases List.mem_append.mp hy with h | h
        · exact hacc y h
        · simp only [List.mem_singleton] at h
          exact h ▸ hl a (List.mem_cons_self a as)
  exact main _ [] (by simp) (fun x hx => mem_sortByKey _ x _ hx) e he

lemma multidegree_append (A B : List (ℕ × ℕ)) (v : ℕ) :
    multidegree (A ++ B) v = multidegree A v + multidegree B v := by
  simp only [multidegree, List.filter_append, List.length_append]
  ring

lemma multidegree_pos_endpoint (E : List (ℕ × ℕ)) (v : ℕ)
    (h : 0 < multidegree E v) : ∃ e ∈ E, e.1 = v ∨ e.2 = v := by
  by_contra hc
  push_neg at hc
  have h1 : E.filter (fun e => e.1 == v) = [] := by
    refine List.filter_eq_nil_iff.mpr ?_
    intro e he
    have := hc e he
    simpa using this.1
  have h2 : E.filter (fun e => e.2 == v) = [] := by
    refine List.filter_eq_nil_iff.mpr ?_
    intro e he
    have := hc e he
    simpa using this.2
  simp [multidegree, h1, h2] at h

/-- C5 amended: whenever the matching computed on the odd-degree MST
vertices is a perfect matching of those vertices (each odd vertex
matched exactly once, matching edges staying inside the odd vertex set —
which is what `networkx.max_weight_matching` produces for instance on
complete input graphs), the MST ∪ matching multigraph of
`Christofides.compute` has every vertex of even degree.  The claim's
unconditional form, for every connected input graph, is refuted by
`christofides_eulerian_assert_fails`. -/
theorem eulerian_invariant_amended (g : Graph)
    (hE : ∀ e ∈ g.edges, e.1 ∈ g.nodes ∧ e.2 ∈ g.nodes)
    (h1 : ∀ v ∈ odd_nodes g.nodes (kruskal_mst g),
        multidegree (min_weight_matching g (oddEdges g)) v = 1)
    (h2 : ∀ e ∈ min_weight_matching g (oddEdges g),
        e.1 ∈ odd_nodes g.nodes (kruskal_mst g) ∧
        e.2 ∈ odd_nodes g.nodes (kruskal_mst g)) :
    ∀ v, Even (multidegree (eu_edges_of g) v) := by
  intro v
  rw [eu_edges_of, multidegree_append]
  rcases Nat.even_or_odd (multidegree (kruskal_mst g) v) with hev | hod
  · -- even MST degree: the vertex is unmatched
    have hM0 : multidegree (min_weight_matching g (oddEdges g)) v = 0 := by
      by_contra hne
      have hpos : 0 < multidegree (min_weight_matching g (oddEdges g)) v :=
        Nat.pos_of_ne_zero hne
      obtain ⟨e, he, hend⟩ := multidegree_pos_endpoint _ v hpos
      have hodd : v ∈ odd_nodes g.nodes (kruskal_mst g) := by
        rcases hend with h | h
        · exact h ▸ (h2 e he).1
        · exact h ▸ (h2 e he).2
      have := List.of_mem_filter hodd
      simp only [beq_iff_eq] at this
      exact absurd (Nat.odd_iff.mpr this) (by simpa using hev)
    rw [hM0]
    simpa using hev
  · -- odd MST degree: the vertex lies in the odd list and is matched once
    have hv : v ∈ g.nodes := by
      have hpos : 0 < multidegree (kruskal_mst g) v := by
        rcases Nat.odd_iff.mp hod with h
        omega
      obtain ⟨e, he, hend⟩ := multidegree_pos_endpoint _ v hpos
      have hge := kruskal_mst_subset g e he
      rcases hend with h | h
      · exact h ▸ (hE e hge).1
      · exact h ▸ (hE e hge).2
    have hvodd : v ∈ odd_nodes g.nodes (kruskal_mst g) := by
      refine List.mem_filter.mpr ⟨hv, ?_⟩
      simpa using Nat.odd_iff.mp hod
    rw [h1 v hvodd]
    have := Nat.odd_iff.mp hod
    refine Nat.even_iff.mpr ?_
    omega

/-- A complete three-point scenario whose MST is the two lightest
edges; the odd MST vertices are 1 and 2, and the matching `[(1,2)]` is
a perfect matching of them. -/
def T3 : Graph :=
  { nodes := [0, 1, 2],
    edges := [(0, 1), (0, 2), (1, 2)],
    w := fun i j =>
      if i == 0 && j == 1 then 1
      else if i == 0 && j == 2 then 2
      else 10,
    hover := fun _ => 0, isDepot := fun n => n == 2 }

/-- Witness for the amended C5 theorem on `T3`. -/
theorem eulerian_invariant_amended_witness :
    min_weight_matching T3 (oddEdges T3) = [(1, 2)] ∧
    Even (multidegree (eu_edges_of T3) 0) := by
  constructor
  · norm_num [kruskal_mst, sortByKey, sortByKey.insertKey, reach, expandReach,
      odd_nodes, oddEdges, min_weight_matching, isMatchingB, recipSum,
      multidegree, T3, List.sublists, Function.iterate_succ, Function.iterate_zero]
  · refine eulerian_invariant_amended T3 (by decide) ?_ ?_ 0 <;>
    norm_num [kruskal_mst, sortByKey, sortByKey.insertKey, reach, expandReach,
      odd_nodes, oddEdges, min_weight_matching, isMatchingB, recipSum,
      multidegree, T3, List.sublists, Function.iterate_succ, Function.iterate_zero]

/-- The Python dict assignment `choice_dict[quality_tour] = (u, t)` on
an insertion-ordered association list from scores to candidates:
an existing key keeps its position and gets its value overwritten, a
new key is appended. -/
def dictInsert : List (ℕ × (ℕ × ℕ)) → ℕ → (ℕ × ℕ) → List (ℕ × (ℕ × ℕ))
  | [], k, v => [(k, v)]
  | (k', v') :: rest, k, v =>
    if k' == k then (k', v) :: rest else (k', v') :: dictInsert rest k v

/-- Dict value lookup `choice_dict[best_value]`. -/
def dictLookup : List (ℕ × (ℕ × ℕ)) → ℕ → Option (ℕ × ℕ)
  | [], _ => none
  | (k', v') :: rest, k => if k' == k then some v' else dictLookup rest k

/-- `max(choice_dict, key=int)`: the maximal key (`none` when the dict
is empty, where Python raises `ValueError`). -/
def listMaxNat : List ℕ → Option ℕ
  | [] => none
  | n :: ns =>
    match listMaxNat ns with
    | none => some n
    | some m => some (max n m)

/-- The candidate enumeration of both `local_optimal_choice`
implementations: agents in ascending index order, restricted to agents
with residual rounds, tours in ascending index order. -/
def candidate_list (residual : ℕ → ℕ) (uavs_tours : List (List Tour)) :
    List (ℕ × ℕ) :=
  (List.range uavs_tours.length).flatMap fun u =>
    if residual u > 0 then
      (List.range (uavs_tours.getD u []).length).map (fun t => (u, t))
    else []

/-- The shared shape of `TotalGreedyCoverage.local_optimal_choice` and
`CumulativeGreedyCoverage.local_optimal_choice`: fill the score-keyed
dict over the candidate enumeration, then read the entry of the maximal
score. -/
def local_optimal_choice_generic (score : ℕ × ℕ → ℕ)
    (cands : List (ℕ × ℕ)) : Option (ℕ × ℕ) :=
  let d := cands.foldl (fun d c => dictInsert d (score c) c) []
  (listMaxNat (d.map Prod.fst)).bind (dictLookup d)

/-- `evaluate_tour` of `TotalGreedyCoverage`: number of targets of the
candidate tour not yet visited. -/
def new_points_count (dep : ℕ → Bool) (uavs_tours : List (List Tour))
    (visited : Finset ℕ) (c : ℕ × ℕ) : ℕ :=
  ((((uavs_tours.getD c.1 []).getD c.2 ⟨[]⟩).targets_indexes dep).toFinset \ visited).card

/-- `TotalGreedyCoverage.local_optimal_choice`. -/
def total_local_optimal_choice (dep : ℕ → Bool) (uavs_tours : List (List Tour))
    (visited : Finset ℕ) (residual : ℕ → ℕ) : Option (ℕ × ℕ) :=
  local_optimal_choice_generic (new_points_count dep uavs_tours visited)
    (candidate_list residual uavs_tours)

/-- `CumulativeGreedyCoverage.local_optimal_choice` (`evaluate_tour`
multiplies the new-point count by the agent's residual rounds). -/
def cumulative_local_optimal_choice (dep : ℕ → Bool) (uavs_tours : List (List Tour))
    (visited : Finset ℕ) (residual : ℕ → ℕ) : Option (ℕ × ℕ) :=
  local_optimal_choice_generic
    (fun c => residual c.1 * new_points_count dep uavs_tours visited c)
    (candidate_list residual uavs_tours)

/-- One step of keeping the later-or-better candidate. -/
def argmaxStep (score : ℕ × ℕ → ℕ) (acc : Option (ℕ × ℕ)) (c : ℕ × ℕ) :
    Option (ℕ × ℕ) :=
  match acc with
  | none => some c
  | some b => if score b ≤ score c then some c else some b

/-- The candidate, last in enumeration order, achieving the maximal
score (the amended tie-break policy). -/
def last_argmax (score : ℕ × ℕ → ℕ) (cands : List (ℕ × ℕ)) : Option (ℕ × ℕ) :=
  cands.foldl (argmaxStep score) none

lemma dictLookup_dictInsert_self (d : List (ℕ × (ℕ × ℕ))) (k : ℕ) (v : ℕ × ℕ) :
    dictLookup (dictInsert d k v) k = some v := by
  induction d with
  | nil => simp [dictInsert, dictLookup]
  | cons kv rest ih =>
    obtain ⟨k', v'⟩ := kv
    by_cases h : k' = k
    · simp [dictInsert, dictLookup, h]
    · simp [dictInsert, dictLookup, h, ih]

lemma dictLookup_dictInsert_ne (d : List (ℕ × (ℕ × ℕ))) (k k' : ℕ) (v : ℕ × ℕ)
    (h : k' ≠ k) : dictLookup (dictInsert d k v) k' = dictLookup d k' := by
  induction d with
  | nil =>
    have h' : ¬(k = k') := fun hh => h hh.symm
    simp [dictInsert, dictLookup, h']
  | cons kv rest ih =>
    obtain ⟨k0, v0⟩ := kv
    by_cases h0 : k0 = k
    · subst h0
      have h' : ¬(k0 = k') := fun hh => h hh.symm
      simp [dictInsert, dictLookup, h', ih]
    · simp only [dictInsert, beq_iff_eq, h0, if_false]
      by_cases h1 : k0 = k'
      · simp [dictLookup, h1]
      · simp [dictLookup, h1, ih]

lemma listMaxNat_dictInsert (d : List (ℕ × (ℕ × ℕ))) (k : ℕ) (v : ℕ × ℕ) :
    listMaxNat ((dictInsert d k v).map Prod.fst) =
      some (match listMaxNat (d.map Prod.fst) with
            | none => k
            | some m => max m k) := by
  induction d with
  | nil => simp [dictInsert, listMaxNat]
  | cons kv rest ih =>
    obtain ⟨k0, v0⟩ := kv
    by_cases h0 : k0 = k
    · subst h0
      simp only [dictInsert, beq_self_eq_true, if_true, List.map_cons, listMaxNat]
      cases h : listMaxNat (rest.map Prod.fst) with
      | none => simp [listMaxNat, h, Nat.max_self]
      | some m =>
        simp only [listMaxNat, h]
        congr 1
        exact (Nat.max_eq_left (Nat.le_max_left k0 m)).symm
    · simp only [dictInsert, beq_iff_eq, h0, if_false, List.map_cons, listMaxNat, ih]
      cases h : listMaxNat (rest.map Prod.fst) with
      | none => simp [listMaxNat, h]
      | some m =>
        simp only [h]
        congr 1
        exact (Nat.max_assoc k0 m k).symm

/-- The invariant linking the score-keyed dict with the running
last-argmax candidate. -/
def ChoiceInv (score : ℕ × ℕ → ℕ) (d : List (ℕ × (ℕ × ℕ))) :
    Option (ℕ × ℕ) → Prop
  | none => d = []
  | some b => listMaxNat (d.map Prod.fst) = some (score b) ∧
              dictLookup d (score b) = some b

lemma choiceInv_step (score : ℕ × ℕ → ℕ) (d : List (ℕ × (ℕ × ℕ)))
    (acc : Option (ℕ × ℕ)) (c : ℕ × ℕ) (h : ChoiceInv score d acc) :
    ChoiceInv score (dictInsert d (score c) c) (argmaxStep score acc c) := by
  cases acc with
  | none =>
    have hd : d = [] := h
    subst hd
    exact ⟨by simp [dictInsert, listMaxNat], by simp [dictInsert, dictLookup]⟩
  | some b =>
    obtain ⟨hmax, hlook⟩ := h
    by_cases hle : score b ≤ score c
    · simp only [argmaxStep, hle, if_true]
      refine ⟨?_, dictLookup_dictInsert_self d (score c) c⟩
      rw [listMaxNat_dictInsert, hmax]
      simp [Nat.max_eq_right hle]
    · simp only [argmaxStep, hle, if_false]
      have hne : score b ≠ score c := by omega
      refine ⟨?_, ?_⟩
      · rw [listMaxNat_dictInsert, hmax]
        congr 1
        exact Nat.max_eq_left (by omega)
      · rw [dictLookup_dictInsert_ne d (score c) (score b) c hne]
        exact hlook

lemma choiceInv_foldl (score : ℕ × ℕ → ℕ) :
    ∀ (cands : List (ℕ × ℕ)) (d : List (ℕ × (ℕ × ℕ))) (acc : Option (ℕ × ℕ)),
      ChoiceInv score d acc →
      ChoiceInv score (cands.foldl (fun d c => dictInsert d (score c) c) d)
        (cands.foldl (argmaxStep score) acc) := by
  intro cands
  induction cands with
  | nil => intro d acc h; exact h
  | cons c cs ih =>
    intro d acc h
    simp only [List.foldl_cons]
    exact ih _ _ (choiceInv_step score d acc c h)

lemma local_optimal_choice_generic_eq_last_argmax (score : ℕ × ℕ → ℕ)
    (cands : List (ℕ × ℕ)) :
    local_optimal_choice_generic score cands = last_argmax score cands := by
  have h := choiceInv_foldl score cands [] none (by simp [ChoiceInv])
  unfold local_optimal_choice_generic last_argmax
  cases hacc : cands.foldl (argmaxStep score) none with
  | none =>
    rw [hacc] at h
    have hd : cands.foldl (fun d c => dictInsert d (score c) c) [] = [] := h
    simp [hd, listMaxNat]
  | some b =>
    rw [hacc] at h
    obtain ⟨hmax, hlook⟩ := h
    simp only [hmax, Option.some_bind]
    exact hlook

/-- C2 amended: in both greedy strategies, when several candidates
share the maximal score, `local_optimal_choice` returns the candidate
*last* in the fixed enumeration order (ascending agent index, then
ascending tour index): every tied later candidate overwrites the
earlier entry of the score-keyed dict.  Selection is still
deterministic and reproducible, but the winner is the last, not the
first, tied candidate. -/
theorem local_optimal_choice_tie_break (dep : ℕ → Bool)
    (uavs_tours : List (List Tour)) (visited : Finset ℕ) (residual : ℕ → ℕ) :
    total_local_optimal_choice dep uavs_tours visited residual =
      last_argmax (new_points_count dep uavs_tours visited)
        (candidate_list residual uavs_tours) ∧
    cumulative_local_optimal_choice dep uavs_tours visited residual =
      last_argmax (fun c => residual c.1 * new_points_count dep uavs_tours visited c)
        (candidate_list residual uavs_tours) :=
  ⟨local_optimal_choice_generic_eq_last_argmax _ _,
   local_optimal_choice_generic_eq_last_argmax _ _⟩

/-- A tour from depot node 9 to target node 0 and back. -/
def tourA : Tour := ⟨[(9, 0), (0, 9)]⟩

/-- Counterexample to C2 as stated: two agents whose single candidate
tours have the same score 1; the fixed enumeration order is
`[(0,0), (1,0)]`, the claim demands the first pair `(0,0)`, but both
strategies return `(1,0)`. -/
theorem local_optimal_choice_tie_break_counterexample :
    total_local_optimal_choice (fun n => n == 9) [[tourA], [tourA]] ∅ (fun _ => 1) =
      some (1, 0) ∧
    cumulative_local_optimal_choice (fun n => n == 9) [[tourA], [tourA]] ∅ (fun _ => 1) =
      some (1, 0) ∧
    candidate_list (fun _ => 1) [[tourA], [tourA]] = [(0, 0), (1, 0)] ∧
    new_points_count (fun n => n == 9) [[tourA], [tourA]] ∅ (0, 0) =
      new_points_count (fun n => n == 9) [[tourA], [tourA]] ∅ (1, 0) := by
  decide

/-- A greedy-and-prune planner instance (`AbstractGreedyAndPrune`):
the depot tag of the scenario, the agent → candidate tours catalog
(agents re-indexed by position, as `self.uavs_tours` does), the round
cap, and the abstract `local_optimal_choice` strategy method. -/
structure Planner where
  dep : ℕ → Bool
  uavs_tours : List (List Tour)
  max_rounds : ℕ
  choose : Finset ℕ → (ℕ → ℕ) → ℕ × ℕ

/-- `self.nuavs`. -/
def Planner.nuavs (P : Planner) : ℕ := P.uavs_tours.length

/-- `AbstractGreedyAndPrune.__reachable_points`: all target indexes
appearing in some candidate tour. -/
def Planner.reachable_points (P : Planner) : Finset ℕ :=
  P.uavs_tours.foldr
    (fun ts acc => ts.foldr (fun t a => (t.targets_indexes P.dep).toFinset ∪ a) acc) ∅

/-- The loop state of `AbstractGreedyAndPrune.solution`. -/
structure GState where
  residual : ℕ → ℕ
  tour_to_assign : ℕ
  visited : Finset ℕ
  assigned : ℕ → List Tour

/-- `AbstractGreedyAndPrune.greedy_stop_condition`. -/
def greedy_stop_condition (P : Planner) (s : GState) : Bool :=
  s.tour_to_assign == 0 || decide (P.reachable_points \ s.visited = ∅)

/-- One body execution of the `while` loop of
`AbstractGreedyAndPrune.solution`: ask the strategy for the choice,
decrement the agent's residual rounds and the global counter, add the
chosen tour's targets to the visited set, append the tour. -/
def loop_body (P : Planner) (s : GState) : GState :=
  let c := P.choose s.visited s.residual
  let opt_tour := (P.uavs_tours.getD c.1 []).getD c.2 ⟨[]⟩
  { residual := fun i => if i == c.1 then s.residual i - 1 else s.residual i
    tour_to_assign := s.tour_to_assign - 1
    visited := s.visited ∪ (opt_tour.targets_indexes P.dep).toFinset
    assigned := fun i => if i == c.1 then s.assigned i ++ [opt_tour] else s.assigned i }

/-- One guarded iteration of the `while` loop: do nothing once the stop
condition holds. -/
def loop_step (P : Planner) (s : GState) : GState :=
  if greedy_stop_condition P s then s else loop_body P s

/-- The state entering the loop in `AbstractGreedyAndPrune.solution`. -/
def init_state (P : Planner) : GState :=
  { residual := fun _ => P.max_rounds
    tour_to_assign := P.max_rounds * P.nuavs
    visited := ∅
    assigned := fun _ => [] }

lemma loop_step_of_stopped (P : Planner) (s : GState)
    (h : greedy_stop_condition P s = true) : loop_step P s = s := by
  simp [loop_step, h]

lemma greedy_stop_of_counter_le :
    ∀ (n : ℕ) (P : Planner) (s : GState), s.tour_to_assign ≤ n →
      greedy_stop_condition P ((loop_step P)^[n] s) = true := by
  intro n
  induction n with
  | zero =>
    intro P s h
    have h0 : s.tour_to_assign = 0 := Nat.le_zero.mp h
    simp [greedy_stop_condition, h0]
  | succ n ih =>
    intro P s h
    by_cases hs : greedy_stop_condition P s = true
    · rw [Function.iterate_fixed (loop_step_of_stopped P s hs) (n + 1)]
      exact hs
    · rw [Function.iterate_succ_apply]
      refine ih P (loop_step P s) ?_
      have hne : s.tour_to_assign ≠ 0 := by
        intro h0
        exact hs (by simp [greedy_stop_condition, h0])
      have : (loop_step P s).tour_to_assign = s.tour_to_assign - 1 := by
        simp [loop_step, hs, loop_body]
      omega

/-- C8. The greedy loop of `AbstractGreedyAndPrune.solution` stops
within `max_rounds * nuavs` iterations (the stop condition holds after
iterating the guarded loop step that many times from the initial
state, whose global counter starts at `max_rounds * nuavs`), and every
iteration executed while the stop condition is false decrements the
global round counter by exactly one. -/
theorem greedy_loop_terminates (P : Planner) :
    greedy_stop_condition P
      ((loop_step P)^[P.max_rounds * P.nuavs] (init_state P)) = true ∧
    (init_state P).tour_to_assign = P.max_rounds * P.nuavs ∧
    ∀ s : GState, greedy_stop_condition P s = false →
      (loop_step P s).tour_to_assign + 1 = s.tour_to_assign := by
  refine ⟨greedy_stop_of_counter_le _ P _ le_rfl, rfl, ?_⟩
  intro s hs
  have hne : s.tour_to_assign ≠ 0 := by
    intro h0
    rw [greedy_stop_condition, h0] at hs
    simp at hs
  have hbody : loop_step P s = loop_body P s := by
    simp [loop_step, hs]
  rw [hbody]
  show s.tour_to_assign - 1 + 1 = s.tour_to_assign
  omega

/-- A planner with one agent owning the single candidate `tourA`,
round cap 1. -/
def P1 : Planner :=
  { dep := fun n => n == 9, uavs_tours := [[tourA]], max_rounds := 1,
    choose := fun _ _ => (0, 0) }

/-- Witness for C8 on `P1`: the initial state is not yet stopped, and
one loop step decrements the counter by exactly one. -/
theorem greedy_loop_terminates_witness :
    greedy_stop_condition P1 (init_state P1) = false ∧
    (loop_step P1 (init_state P1)).tour_to_assign + 1 =
      (init_state P1).tour_to_assign :=
  ⟨by decide, (greedy_loop_terminates P1).2.2 (init_state P1) (by decide)⟩

/-- `AbstractGreedyAndPrune.__check_depots`: for every agent, the set
of depots referenced by its tours must have exactly one element. -/
def check_depots (dep : ℕ → Bool) (uavs_tours : List (List Tour)) : Bool :=
  uavs_tours.all fun ts =>
    (dedupKeepFirst [] (ts.map (fun t => t.depot_index dep))).length == 1

/-- `AbstractGreedyAndPrune.__init__`: the construction runs
`__check_depots` and aborts (`none`) when some agent's tours do not
reference exactly one depot. -/
def mkGreedyAndPrune (dep : ℕ → Bool) (uavs_tours : List (List Tour))
    (max_rounds : ℕ) (choose : Finset ℕ → (ℕ → ℕ) → ℕ × ℕ) : Option Planner :=
  if check_depots dep uavs_tours then
    some ⟨dep, uavs_tours, max_rounds, choose⟩
  else none

/-- C10. Constructing a greedy planner whose catalog maps some agent to
an empty tour list fails the `__check_depots` assertion (the agent's
depot set is empty, so its size is 0, not 1), aborting construction. -/
theorem empty_tour_list_rejected (dep : ℕ → Bool) (uavs_tours : List (List Tour))
    (max_rounds : ℕ) (choose : Finset ℕ → (ℕ → ℕ) → ℕ × ℕ)
    (h : [] ∈ uavs_tours) :
    mkGreedyAndPrune dep uavs_tours max_rounds choose = none := by
  have hfail : check_depots dep uavs_tours = false := by
    rw [check_depots]
    rw [List.all_eq_false]
    exact ⟨[], h, by simp [dedupKeepFirst]⟩
  simp [mkGreedyAndPrune, hfail]

/-- Witness for C10: a one-agent catalog with an empty tour list. -/
theorem empty_tour_list_rejected_witness :
    mkGreedyAndPrune (fun n => n == 9) [[]] 1 (fun _ _ => (0, 0)) = none :=
  empty_tour_list_rejected _ _ _ _ (List.mem_singleton.mpr rfl)

/-- The data recorded by a successfully constructed `AoI`. -/
structure AoIData where
  depots : List (ℤ × ℤ)
  target_points : List (ℤ × ℤ)
  width : ℤ
  height : ℤ
deriving DecidableEq

/-- `AoI.__init__`: assert that the target points have no duplicates
and that the depots have no duplicates, then record the inputs.  No
check relating the two sets is performed. -/
def aoi_init (depots target_points : List (ℤ × ℤ)) (width height : ℤ) :
    Option AoIData :=
  if target_points.Nodup ∧ depots.Nodup then
    some ⟨depots, target_points, width, height⟩
  else none

/-- Counterexample to C9: the point `(0,0)` appears both as the only
depot and as the only target, the two sets are not disjoint, yet `AoI`
construction succeeds — disjointness is never checked. -/
theorem aoi_disjointness_not_checked :
    aoi_init [(0, 0)] [(0, 0)] 100 100 =
      some ⟨[(0, 0)], [(0, 0)], 100, 100⟩ ∧
    (0, 0) ∈ ([(0, 0)] : List (ℤ × ℤ)) ∧
    (0, 0) ∈ ([(0, 0)] : List (ℤ × ℤ)) := by
  refine ⟨?_, by simp, by simp⟩
  rw [aoi_init, if_pos]
  exact ⟨List.nodup_singleton _, List.nodup_singleton _⟩

/-- C9 amended: `AoI` construction succeeds exactly when the target
list and the depot list are each free of duplicates; the duplicate
checks are enforced as invariants, while disjointness of the two sets
is not checked. -/
theorem aoi_init_accepts_iff (depots target_points : List (ℤ × ℤ))
    (width height : ℤ) :
    (aoi_init depots target_points width height).isSome = true ↔
      target_points.Nodup ∧ depots.Nodup := by
  rw [aoi_init]
  split
  · simp_all
  · simp_all

/-- The per-tour body of `utility.pruning_multiroundsolution`: keep the
depot and the targets not yet covered (in original order); the rebuilt
tour is emitted only when more than the depot survives
(`len(new_tour_nodes) > 1`), `none` models the dropped round. -/
def prune_tour (dep : ℕ → Bool) (cov : Finset ℕ) (t : Tour) : Option Tour :=
  if 1 < (t.depot_index dep ::
      (t.targets_indexes dep).filter (fun n => decide (n ∉ cov))).length then
    some ⟨build_tour_from_ordered_nodes (t.depot_index dep ::
      (t.targets_indexes dep).filter (fun n => decide (n ∉ cov)))⟩
  else none

/-- The inner drone loop of `pruning_multiroundsolution` for one round
index `r`: thread the `already_covered_nodes` set through the drones in
order, recording for every drone its (possibly dropped) pruned tour of
round `r`; drones that do not use round `r` are skipped. -/
def prune_round (dep : ℕ → Bool) (r : ℕ) :
    Finset ℕ → List (List Tour) → Finset ℕ × List (List Tour)
  | cov, [] => (cov, [])
  | cov, ts :: rest =>
    match ts[r]? with
    | none =>
      ((prune_round dep r cov rest).1, [] :: (prune_round dep r cov rest).2)
    | some t =>
      ((prune_round dep r (cov ∪ (t.targets_indexes dep).toFinset) rest).1,
       (match prune_tour dep cov t with
        | some t' => [t']
        | none => []) ::
       (prune_round dep r (cov ∪ (t.targets_indexes dep).toFinset) rest).2)

/-- The outer round loop of `pruning_multiroundsolution`: per-drone
pruned tours accumulate in round order (the builder's `append_tour`). -/
def prune_rounds (dep : ℕ → Bool) :
    List ℕ → Finset ℕ → List (List Tour) → Finset ℕ × List (List Tour)
  | [], cov, sol => (cov, sol.map (fun _ => []))
  | r :: rs, cov, sol =>
    ((prune_rounds dep rs (prune_round dep r cov sol).1 sol).1,
     List.zipWith (· ++ ·) (prune_round dep r cov sol).2
       (prune_rounds dep rs (prune_round dep r cov sol).1 sol).2)

/-- `MultiRoundSolution.max_rounds`: the maximal number of rounds used
by any drone. -/
def solMaxRounds (sol : List (List Tour)) : ℕ :=
  sol.foldr (fun ts m => max ts.length m) 0

/-- `utility.pruning_multiroundsolution` on a multi-round solution
given as the per-drone ordered tour lists (drones in the insertion
order of `drone_and_tours`): walk the rounds `0 .. max_rounds - 1`,
drones in order inside each round, starting from an empty covered set,
and rebuild each drone's pruned tour list. -/
def pruning_multiroundsolution (dep : ℕ → Bool) (sol : List (List Tour)) :
    List (List Tour) :=
  (prune_rounds dep (List.range (solMaxRounds sol)) ∅ sol).2

/-- `MultiRoundSolution.covered_graph_targets`: all target indexes
covered by some tour of some drone. -/
def covered_targets (dep : ℕ → Bool) (sol : List (List Tour)) : Finset ℕ :=
  sol.foldr
    (fun ts acc => ts.foldr (fun t a => (t.targets_indexes dep).toFinset ∪ a) acc) ∅

/-- In how many (agent, round) tours of the solution does target `x`
appear? -/
def target_visit_count (dep : ℕ → Bool) (sol : List (List Tour)) (x : ℕ) : ℕ :=
  (sol.flatten.filter (fun t => decide (x ∈ t.targets_indexes dep))).length

/-- The targets of the round-`r` tours of the solution. -/
def round_cov (dep : ℕ → Bool) (r : ℕ) (sol : List (List Tour)) : Finset ℕ :=
  sol.foldr
    (fun ts acc =>
      match ts[r]? with
      | some t => (t.targets_indexes dep).toFinset ∪ acc
      | none => acc) ∅

/-- The targets of the tours of the solution over a list of rounds. -/
def rounds_cov (dep : ℕ → Bool) (rs : List ℕ) (sol : List (List Tour)) : Finset ℕ :=
  rs.foldr (fun r acc => round_cov dep r sol ∪ acc) ∅

/-- The structural shape of every tour emitted by the pruning pass:
a nonempty target list, a depot-tagged depot index, and a closed edge
cycle rebuilt from depot followed by targets. -/
def PrunedShape (dep : ℕ → Bool) (t : Tour) : Prop :=
  t.targets_indexes dep ≠ [] ∧
  dep (t.depot_index dep) = true ∧
  t.edges = build_tour_from_ordered_nodes (t.depot_index dep :: t.targets_indexes dep)

/-- Well-formedness of the tours of a solution, inherited from
`Tour.__init__` having seen at least one depot endpoint (without it
the Python object has no `depot_index` attribute and pruning raises). -/
def WFSol (dep : ℕ → Bool) (sol : List (List Tour)) : Prop :=
  ∀ ts ∈ sol, ∀ t ∈ ts, (t.edges.map Prod.fst).filter dep ≠ []

lemma getLastD_mem : ∀ (l : List ℕ) (d : ℕ), l ≠ [] → l.getLastD d ∈ l
  | [], _, h => absurd rfl h
  | [a], d, _ => by
    rw [List.getLastD_cons, List.getLastD_nil]
    exact List.mem_singleton.mpr rfl
  | a :: b :: t, d, _ => by
    rw [List.getLastD_cons]
    exact List.mem_cons_of_mem a (getLastD_mem (b :: t) a (by simp))

lemma depot_index_isDepot (dep : ℕ → Bool) (t : Tour)
    (h : (t.edges.map Prod.fst).filter dep ≠ []) :
    dep (t.depot_index dep) = true :=
  List.of_mem_filter (getLastD_mem _ 0 h)

lemma targets_not_depot (dep : ℕ → Bool) (t : Tour) :
    ∀ x ∈ t.targets_indexes dep, dep x = false := by
  intro x hx
  have := List.of_mem_filter hx
  simpa using this

lemma build_tour_map_fst (ns : List ℕ) (h : ns ≠ []) :
    (build_tour_from_ordered_nodes ns).map Prod.fst = ns := by
  cases ns with
  | nil => exact absurd rfl h
  | cons n0 tail =>
    unfold build_tour_from_ordered_nodes
    apply List.map_fst_zip
    simp

lemma rebuilt_targets (dep : ℕ → Bool) (d : ℕ) (fresh : List ℕ)
    (hd : dep d = true) (hf : ∀ x ∈ fresh, dep x = false) :
    (Tour.mk (build_tour_from_ordered_nodes (d :: fresh))).targets_indexes dep
      = fresh := by
  unfold Tour.targets_indexes
  rw [build_tour_map_fst _ (by simp)]
  rw [List.filter_cons_of_neg (by simp [hd])]
  exact List.filter_eq_self.mpr (fun x hx => by simp [hf x hx])

lemma rebuilt_depot_index (dep : ℕ → Bool) (d : ℕ) (fresh : List ℕ)
    (hd : dep d = true) (hf : ∀ x ∈ fresh, dep x = false) :
    (Tour.mk (build_tour_from_ordered_nodes (d :: fresh))).depot_index dep = d := by
  unfold Tour.depot_index
  rw [build_tour_map_fst _ (by simp)]
  rw [List.filter_cons_of_pos hd]
  rw [List.filter_eq_nil_iff.mpr (fun x hx => by simp [hf x hx])]
  rfl

lemma rebuilt_wf (dep : ℕ → Bool) (d : ℕ) (fresh : List ℕ)
    (hd : dep d = true) :
    ((Tour.mk (build_tour_from_ordered_nodes (d :: fresh))).edges.map
        Prod.fst).filter dep ≠ [] := by
  rw [build_tour_map_fst _ (by simp)]
  rw [List.filter_cons_of_pos hd]
  simp

lemma prune_tour_eq_some (dep : ℕ → Bool) (cov : Finset ℕ) (t t' : Tour)
    (hwf : (t.edges.map Prod.fst).filter dep ≠ [])
    (h : prune_tour dep cov t = some t') :
    t'.targets_indexes dep =
      (t.targets_indexes dep).filter (fun n => decide (n ∉ cov)) ∧
    t'.targets_indexes dep ≠ [] ∧ PrunedShape dep t' := by
  have hd : dep (t.depot_index dep) = true := depot_index_isDepot dep t hwf
  set fresh := (t.targets_indexes dep).filter (fun n => decide (n ∉ cov)) with hfr
  have hf : ∀ x ∈ fresh, dep x = false := by
    intro x hx
    exact targets_not_depot dep t x (List.mem_of_mem_filter hx)
  unfold prune_tour at h
  rw [← hfr] at h
  split at h
  · rename_i hlen
    have hfne : fresh ≠ [] := by
      intro hempty
      rw [hempty] at hlen
      simp at hlen
    cases h
    refine ⟨rebuilt_targets dep _ fresh hd hf, ?_, ?_, ?_, ?_⟩
    · rw [rebuilt_targets dep _ fresh hd hf]; exact hfne
    · rw [rebuilt_targets dep _ fresh hd hf]; exact hfne
    · rw [rebuilt_depot_index dep _ fresh hd hf]; exact hd
    · rw [rebuilt_depot_index dep _ fresh hd hf,
          rebuilt_targets dep _ fresh hd hf]
  · cases h

lemma prune_tour_eq_none (dep : ℕ → Bool) (cov : Finset ℕ) (t : Tour)
    (h : prune_tour dep cov t = none) :
    ∀ x ∈ t.targets_indexes dep, x ∈ cov := by
  intro x hx
  unfold prune_tour at h
  split at h
  · cases h
  · rename_i hlen
    by_contra hxc
    have hmem : x ∈ (t.targets_indexes dep).filter (fun n => decide (n ∉ cov)) :=
      List.mem_filter.mpr ⟨hx, by simpa using hxc⟩
    have : (t.targets_indexes dep).filter (fun n => decide (n ∉ cov)) ≠ [] := by
      intro hempty
      rw [hempty] at hmem
      simp at hmem
    rcases List.exists_cons_of_ne_nil this with ⟨y, ys, hys⟩
    rw [hys] at hlen
    simp at hlen

lemma prune_tour_isSome_of_fresh (dep : ℕ → Bool) (cov : Finset ℕ) (t : Tour)
    (x : ℕ) (hx : x ∈ t.targets_indexes dep) (hxc : x ∉ cov) :
    ∃ t', prune_tour dep cov t = some t' := by
  cases hp : prune_tour dep cov t with
  | some t' => exact ⟨t', rfl⟩
  | none => exact absurd (prune_tour_eq_none dep cov t hp x hx) hxc

lemma prune_tour_self (dep : ℕ → Bool) (cov : Finset ℕ) (t : Tour)
    (h : PrunedShape dep t)
    (hdisj : ∀ x ∈ t.targets_indexes dep, x ∉ cov) :
    prune_tour dep cov t = some t := by
  obtain ⟨hne, hd, hedges⟩ := h
  unfold prune_tour
  have hfilter : (t.targets_indexes dep).filter (fun n => decide (n ∉ cov))
      = t.targets_indexes dep :=
    List.filter_eq_self.mpr (fun x hx => by simpa using hdisj x hx)
  rw [hfilter, if_pos]
  · rw [← hedges]
  · rcases List.exists_cons_of_ne_nil hne with ⟨y, ys, hys⟩
    rw [hys]
    simp

/-- The number of round tours of one drone in which target `x`
appears. -/
def drone_visit_count (dep : ℕ → Bool) (ts : List Tour) (x : ℕ) : ℕ :=
  (ts.filter (fun t => decide (x ∈ t.targets_indexes dep))).length

lemma target_visit_count_nil (dep : ℕ → Bool) (x : ℕ) :
    target_visit_count dep [] x = 0 := rfl

lemma target_visit_count_cons (dep : ℕ → Bool) (ts : List Tour)
    (rest : List (List Tour)) (x : ℕ) :
    target_visit_count dep (ts :: rest) x =
      drone_visit_count dep ts x + target_visit_count dep rest x := by
  simp [target_visit_count, drone_visit_count, List.filter_append]

lemma target_visit_count_zipWith (dep : ℕ → Bool) :
    ∀ (A B : List (List Tour)), A.length = B.length → ∀ x : ℕ,
      target_visit_count dep (List.zipWith (· ++ ·) A B) x =
        target_visit_count dep A x + target_visit_count dep B x := by
  intro A
  induction A with
  | nil =>
    intro B h x
    cases B with
    | nil => rfl
    | cons b B' => simp at h
  | cons a A' ih =>
    intro B h x
    cases B with
    | nil => simp at h
    | cons b B' =>
      simp only [List.zipWith_cons_cons]
      rw [target_visit_count_cons, target_visit_count_cons,
          target_visit_count_cons]
      have hd : drone_visit_count dep (a ++ b) x =
          drone_visit_count dep a x + drone_visit_count dep b x := by
        simp [drone_visit_count, List.filter_append]
      rw [hd, ih B' (by simpa using h) x]
      omega

lemma drone_visit_count_nil (dep : ℕ → Bool) (x : ℕ) :
    drone_visit_count dep [] x = 0 := rfl

lemma drone_visit_count_singleton (dep : ℕ → Bool) (t : Tour) (x : ℕ) :
    drone_visit_count dep [t] x =
      if x ∈ t.targets_indexes dep then 1 else 0 := by
  by_cases h : x ∈ t.targets_indexes dep <;>
    simp [drone_visit_count, List.filter, h]

lemma inner_foldr_union (dep : ℕ → Bool) :
    ∀ (ts : List Tour) (acc : Finset ℕ),
      ts.foldr (fun t a => (t.targets_indexes dep).toFinset ∪ a) acc =
        ts.foldr (fun t a => (t.targets_indexes dep).toFinset ∪ a) ∅ ∪ acc := by
  intro ts
  induction ts with
  | nil => intro acc; simp
  | cons t ts ih =>
    intro acc
    simp only [List.foldr_cons]
    rw [ih acc, Finset.union_assoc]

lemma covered_targets_cons (dep : ℕ → Bool) (ts : List Tour)
    (rest : List (List Tour)) :
    covered_targets dep (ts :: rest) =
      ts.foldr (fun t a => (t.targets_indexes dep).toFinset ∪ a) ∅ ∪
        covered_targets dep rest := by
  simp only [covered_targets, List.foldr_cons]
  exact inner_foldr_union dep ts _

lemma mem_tours_foldr (dep : ℕ → Bool) (ts : List Tour) (x : ℕ) :
    (x ∈ ts.foldr (fun t a => (t.targets_indexes dep).toFinset ∪ a) ∅) ↔
      ∃ t ∈ ts, x ∈ t.targets_indexes dep := by
  induction ts with
  | nil => simp
  | cons t ts ih =>
    simp [List.foldr_cons, Finset.mem_union, ih, List.mem_toFinset]

lemma mem_covered_targets (dep : ℕ → Bool) (sol : List (List Tour)) (x : ℕ) :
    x ∈ covered_targets dep sol ↔
      ∃ ts ∈ sol, ∃ t ∈ ts, x ∈ t.targets_indexes dep := by
  induction sol with
  | nil => simp [covered_targets]
  | cons ts rest ih =>
    rw [covered_targets_cons]
    simp only [Finset.mem_union, ih, mem_tours_foldr, List.mem_cons]
    constructor
    · rintro (⟨t, ht, hx⟩ | ⟨ts', h1, h2⟩)
      · exact ⟨ts, Or.inl rfl, t, ht, hx⟩
      · exact ⟨ts', Or.inr h1, h2⟩
    · rintro ⟨ts', hts', t, ht, hx⟩
      rcases hts' with h | h
      · exact Or.inl ⟨t, h ▸ ht, hx⟩
      · exact Or.inr ⟨ts', h, t, ht, hx⟩

lemma target_visit_count_pos_iff (dep : ℕ → Bool) (sol : List (List Tour))
    (x : ℕ) :
    0 < target_visit_count dep sol x ↔
      ∃ ts ∈ sol, ∃ t ∈ ts, x ∈ t.targets_indexes dep := by
  unfold target_visit_count
  rw [← List.countP_eq_length_filter, List.countP_pos_iff]
  constructor
  · rintro ⟨t, ht, hp⟩
    obtain ⟨ts, hts, htm⟩ := List.mem_flatten.mp ht
    exact ⟨ts, hts, t, htm, by simpa using hp⟩
  · rintro ⟨ts, hts, t, ht, hx⟩
    exact ⟨t, List.mem_flatten.mpr ⟨ts, hts, ht⟩, by simpa using hx⟩

lemma mem_round_cov (dep : ℕ → Bool) (r : ℕ) :
    ∀ (sol : List (List Tour)) (x : ℕ),
      x ∈ round_cov dep r sol ↔
        ∃ ts ∈ sol, ∃ t, ts[r]? = some t ∧ x ∈ t.targets_indexes dep := by
  intro sol
  induction sol with
  | nil => simp [round_cov]
  | cons ts rest ih =>
    intro x
    simp only [round_cov, List.foldr_cons]
    cases hget : ts[r]? with
    | none =>
      rw [show (rest.foldr (fun ts acc =>
            match ts[r]? with
            | some t => (t.targets_indexes dep).toFinset ∪ acc
            | none => acc) ∅) = round_cov dep r rest from rfl]
      rw [ih x]
      constructor
      · rintro ⟨ts', h1, h2⟩
        exact ⟨ts', List.mem_cons_of_mem _ h1, h2⟩
      · rintro ⟨ts', hts', t, ht, hx⟩
        rcases List.mem_cons.mp hts' with h | h
        · subst h; rw [hget] at ht; cases ht
        · exact ⟨ts', h, t, ht, hx⟩
    | some t =>
      rw [show (rest.foldr (fun ts acc =>
            match ts[r]? with
            | some t => (t.targets_indexes dep).toFinset ∪ acc
            | none => acc) ∅) = round_cov dep r rest from rfl]
      rw [Finset.mem_union, ih x, List.mem_toFinset]
      constructor
      · rintro (hx | ⟨ts', h1, h2⟩)
        · exact ⟨ts, List.mem_cons_self ts rest, t, hget, hx⟩
        · exact ⟨ts', List.mem_cons_of_mem _ h1, h2⟩
      · rintro ⟨ts', hts', t', ht', hx⟩
        rcases List.mem_cons.mp hts' with h | h
        · subst h
          rw [hget] at ht'
          cases ht'
          exact Or.inl hx
        · exact Or.inr ⟨ts', h, t', ht', hx⟩

lemma mem_rounds_cov (dep : ℕ → Bool) :
    ∀ (rs : List ℕ) (sol : List (List Tour)) (x : ℕ),
      x ∈ rounds_cov dep rs sol ↔ ∃ r ∈ rs, x ∈ round_cov dep r sol := by
  intro rs
  induction rs with
  | nil => simp [rounds_cov]
  | cons r rs ih =>
    intro sol x
    simp only [rounds_cov, List.foldr_cons, Finset.mem_union]
    rw [show (rs.foldr (fun r acc => round_cov dep r sol ∪ acc) ∅) =
        rounds_cov dep rs sol from rfl, ih]
    constructor
    · rintro (h | ⟨r', h1, h2⟩)
      · exact ⟨r, List.mem_cons_self r rs, h⟩
      · exact ⟨r', List.mem_cons_of_mem _ h1, h2⟩
    · rintro ⟨r', hr', h⟩
      rcases List.mem_cons.mp hr' with h1 | h1
      · exact Or.inl (h1 ▸ h)
      · exact Or.inr ⟨r', h1, h⟩

lemma length_le_solMaxRounds :
    ∀ (sol : List (List Tour)) (ts : List Tour), ts ∈ sol →
      ts.length ≤ solMaxRounds sol := by
  intro sol
  induction sol with
  | nil => intro ts h; simp at h
  | cons ts0 rest ih =>
    intro ts h
    rcases List.mem_cons.mp h with h | h
    · subst h
      simp only [solMaxRounds, List.foldr_cons]
      exact le_max_left _ _
    · refine le_trans (ih ts h) ?_
      simp only [solMaxRounds, List.foldr_cons]
      exact le_max_right _ _

lemma rounds_cov_range_eq (dep : ℕ → Bool) (sol : List (List Tour)) :
    rounds_cov dep (List.range (solMaxRounds sol)) sol =
      covered_targets dep sol := by
  ext x
  rw [mem_rounds_cov, mem_covered_targets]
  constructor
  · rintro ⟨r, _, hr⟩
    obtain ⟨ts, hts, t, ht, hx⟩ := (mem_round_cov dep r sol x).mp hr
    exact ⟨ts, hts, t, List.getElem?_mem ht, hx⟩
  · rintro ⟨ts, hts, t, ht, hx⟩
    obtain ⟨r, hrlt, hget⟩ := List.getElem_of_mem ht
    refine ⟨r, List.mem_range.mpr (lt_of_lt_of_le hrlt
      (length_le_solMaxRounds sol ts hts)), ?_⟩
    exact (mem_round_cov dep r sol x).mpr
      ⟨ts, hts, t, by rw [List.getElem?_eq_getElem hrlt, hget], hx⟩

lemma round_cov_cons_none (dep : ℕ → Bool) (r : ℕ) (ts : List Tour)
    (rest : List (List Tour)) (hget : ts[r]? = none) :
    round_cov dep r (ts :: rest) = round_cov dep r rest := by
  simp only [round_cov, List.foldr_cons, hget]

lemma round_cov_cons_some (dep : ℕ → Bool) (r : ℕ) (ts : List Tour)
    (rest : List (List Tour)) (t : Tour) (hget : ts[r]? = some t) :
    round_cov dep r (ts :: rest) =
      (t.targets_indexes dep).toFinset ∪ round_cov dep r rest := by
  simp only [round_cov, List.foldr_cons, hget]

lemma prune_round_spec (dep : ℕ → Bool) (r : ℕ) :
    ∀ (sol : List (List Tour)) (cov : Finset ℕ),
      WFSol dep sol →
      (prune_round dep r cov sol).1 = cov ∪ round_cov dep r sol ∧
      (prune_round dep r cov sol).2.length = sol.length ∧
      (∀ es ∈ (prune_round dep r cov sol).2, ∀ t' ∈ es, PrunedShape dep t') ∧
      ∀ x : ℕ,
        (x ∈ cov → target_visit_count dep (prune_round dep r cov sol).2 x = 0) ∧
        target_visit_count dep (prune_round dep r cov sol).2 x ≤ 1 ∧
        (x ∉ cov →
          (x ∈ (prune_round dep r cov sol).1 ↔
            target_visit_count dep (prune_round dep r cov sol).2 x = 1)) := by
  intro sol
  induction sol with
  | nil =>
    intro cov _
    refine ⟨by simp [prune_round, round_cov], rfl, by simp [prune_round], ?_⟩
    intro x
    refine ⟨fun _ => rfl, by simp [prune_round, target_visit_count], ?_⟩
    intro hx
    simp only [prune_round]
    exact iff_of_false hx (by simp [target_visit_count])
  | cons ts rest ih =>
    intro cov hwf
    have hwf_rest : WFSol dep rest := fun ts' h' t' ht' =>
      hwf ts' (List.mem_cons_of_mem _ h') t' ht'
    cases hget : ts[r]? with
    | none =>
      obtain ⟨ih1, ih2, ih3, ih4⟩ := ih cov hwf_rest
      simp only [prune_round, hget]
      refine ⟨?_, ?_, ?_, ?_⟩
      · rw [ih1, round_cov_cons_none dep r ts rest hget]
      · simp [ih2]
      · intro es hes t' ht'
        rcases List.mem_cons.mp hes with h | h
        · rw [h] at ht'; simp at ht'
        · exact ih3 es h t' ht'
      · intro x
        obtain ⟨iha, ihb, ihc⟩ := ih4 x
        rw [target_visit_count_cons, drone_visit_count_nil]
        exact ⟨fun hx => by simp [iha hx], by simpa using ihb,
               fun hx => by simpa using ihc hx⟩
    | some t =>
      have hts : t ∈ ts := List.getElem?_mem hget
      have hwft : (t.edges.map Prod.fst).filter dep ≠ [] :=
        hwf ts (List.mem_cons_self ts rest) t hts
      obtain ⟨ih1, ih2, ih3, ih4⟩ :=
        ih (cov ∪ (t.targets_indexes dep).toFinset) hwf_rest
      simp only [prune_round, hget]
      refine ⟨?_, ?_, ?_, ?_⟩
      · rw [ih1, round_cov_cons_some dep r ts rest t hget, Finset.union_assoc]
      · simp [ih2]
      · intro es hes t' ht'
        rcases List.mem_cons.mp hes with h | h
        · subst h
          cases hpt : prune_tour dep cov t with
          | none => rw [hpt] at ht'; simp at ht'
          | some t'' =>
            rw [hpt] at ht'
            rcases List.mem_singleton.mp ht' with h'
            subst h'
            exact (prune_tour_eq_some dep cov t t' hwft hpt).2.2
        · exact ih3 es h t' ht'
      · intro x
        obtain ⟨iha, ihb, ihc⟩ := ih4 x
        cases hpt : prune_tour dep cov t with
        | none =>
          have hsub : ∀ y ∈ t.targets_indexes dep, y ∈ cov :=
            prune_tour_eq_none dep cov t hpt
          rw [target_visit_count_cons, drone_visit_count_nil]
          refine ⟨?_, by simpa using ihb, ?_⟩
          · intro hx
            simp only [Nat.zero_add]
            exact iha (Finset.mem_union_left _ hx)
          · intro hx
            have hxt : x ∉ (t.targets_indexes dep).toFinset := by
              intro hmem
              exact hx (hsub x (List.mem_toFinset.mp hmem))
            have hxcovT : x ∉ cov ∪ (t.targets_indexes dep).toFinset := by
              simp [Finset.mem_union, hx, hxt]
            simpa using ihc hxcovT
        | some t' =>
          obtain ⟨htt, htne, _⟩ := prune_tour_eq_some dep cov t t' hwft hpt
          have hmem : x ∈ t'.targets_indexes dep ↔
              (x ∈ t.targets_indexes dep ∧ x ∉ cov) := by
            rw [htt, List.mem_filter]
            simp
          rw [target_visit_count_cons, drone_visit_count_singleton]
          by_cases hxc : x ∈ cov
          · have hnot : x ∉ t'.targets_indexes dep := by
              intro h
              exact ((hmem.mp h).2 hxc)
            rw [if_neg hnot]
            have h0 : target_visit_count dep
                (prune_round dep r (cov ∪ (t.targets_indexes dep).toFinset) rest).2 x = 0 :=
              iha (Finset.mem_union_left _ hxc)
            exact ⟨fun _ => by simp [h0], by simp [h0],
                   fun hx => absurd hxc hx⟩
          · by_cases hxt : x ∈ t.targets_indexes dep
            · have hyes : x ∈ t'.targets_indexes dep := hmem.mpr ⟨hxt, hxc⟩
              rw [if_pos hyes]
              have h0 : target_visit_count dep
                  (prune_round dep r (cov ∪ (t.targets_indexes dep).toFinset) rest).2 x = 0 :=
                iha (Finset.mem_union_right _ (List.mem_toFinset.mpr hxt))
              refine ⟨fun hx => absurd hx hxc, by simp [h0], ?_⟩
              intro _
              rw [ih1]
              constructor
              · intro _; simp [h0]
              · intro _
                exact Finset.mem_union_left _
                  (Finset.mem_union_right _ (List.mem_toFinset.mpr hxt))
            · have hnot : x ∉ t'.targets_indexes dep := by
                intro h
                exact hxt (hmem.mp h).1
              rw [if_neg hnot]
              have hxcovT : x ∉ cov ∪ (t.targets_indexes dep).toFinset := by
                intro h
                rcases Finset.mem_union.mp h with h | h
                · exact hxc h
                · exact hxt (List.mem_toFinset.mp h)
              refine ⟨fun hx => absurd hx hxc, by simpa using ihb, ?_⟩
              intro _
              simpa using ihc hxcovT

lemma mem_zipWith_append :
    ∀ (A B : List (List Tour)) (es : List Tour),
      es ∈ List.zipWith (· ++ ·) A B → ∃ a ∈ A, ∃ b ∈ B, es = a ++ b := by
  intro A
  induction A with
  | nil => intro B es h; simp at h
  | cons a A' ih =>
    intro B es h
    cases B with
    | nil => simp at h
    | cons b B' =>
      rw [List.zipWith_cons_cons] at h
      rcases List.mem_cons.mp h with h | h
      · exact ⟨a, List.mem_cons_self a A', b, List.mem_cons_self b B', h⟩
      · obtain ⟨a', ha', b', hb', heq⟩ := ih B' es h
        exact ⟨a', List.mem_cons_of_mem _ ha', b', List.mem_cons_of_mem _ hb', heq⟩

lemma target_visit_count_map_nil (dep : ℕ → Bool)
    (sol : List (List Tour)) (x : ℕ) :
    target_visit_count dep (sol.map (fun _ => ([] : List Tour))) x = 0 := by
  induction sol with
  | nil => rfl
  | cons ts rest ih =>
    rw [List.map_cons, target_visit_count_cons, drone_visit_count_nil, ih]

lemma rounds_cov_cons (dep : ℕ → Bool) (r : ℕ) (rs : List ℕ)
    (sol : List (List Tour)) :
    rounds_cov dep (r :: rs) sol = round_cov dep r sol ∪ rounds_cov dep rs sol := by
  simp only [rounds_cov, List.foldr_cons]

lemma prune_rounds_spec (dep : ℕ → Bool) :
    ∀ (rs : List ℕ) (sol : List (List Tour)) (cov : Finset ℕ),
      WFSol dep sol →
      (prune_rounds dep rs cov sol).1 = cov ∪ rounds_cov dep rs sol ∧
      (prune_rounds dep rs cov sol).2.length = sol.length ∧
      (∀ es ∈ (prune_rounds dep rs cov sol).2, ∀ t' ∈ es, PrunedShape dep t') ∧
      ∀ x : ℕ,
        (x ∈ cov → target_visit_count dep (prune_rounds dep rs cov sol).2 x = 0) ∧
        target_visit_count dep (prune_rounds dep rs cov sol).2 x ≤ 1 ∧
        (x ∉ cov →
          (x ∈ (prune_rounds dep rs cov sol).1 ↔
            target_visit_count dep (prune_rounds dep rs cov sol).2 x = 1)) := by
  intro rs
  induction rs with
  | nil =>
    intro sol cov _
    refine ⟨by simp [prune_rounds, rounds_cov], by simp [prune_rounds], ?_, ?_⟩
    · intro es hes t' ht'
      simp only [prune_rounds] at hes
      obtain ⟨_, _, hnil⟩ := List.mem_map.mp hes
      rw [← hnil] at ht'
      simp at ht'
    · intro x
      have hc : target_visit_count dep (prune_rounds dep [] cov sol).2 x = 0 := by
        show target_visit_count dep (sol.map (fun _ => [])) x = 0
        exact target_visit_count_map_nil dep sol x
      refine ⟨fun _ => hc, by rw [hc]; omega, ?_⟩
      intro hx
      rw [hc]
      exact iff_of_false hx (by omega)
  | cons r rs ih =>
    intro sol cov hwf
    obtain ⟨s1, s2, s3, s4⟩ := prune_round_spec dep r sol cov hwf
    obtain ⟨ih1, ih2, ih3, ih4⟩ := ih sol (prune_round dep r cov sol).1 hwf
    have hlen : (prune_round dep r cov sol).2.length =
        (prune_rounds dep rs (prune_round dep r cov sol).1 sol).2.length := by
      rw [s2, ih2]
    have hcov_sub : cov ⊆ (prune_round dep r cov sol).1 := by
      rw [s1]; exact Finset.subset_union_left
    refine ⟨?_, ?_, ?_, ?_⟩
    · show (prune_rounds dep rs (prune_round dep r cov sol).1 sol).1 = _
      rw [ih1, s1, rounds_cov_cons, Finset.union_assoc]
    · show (List.zipWith (· ++ ·) _ _).length = _
      rw [List.length_zipWith, s2, ih2, min_self]
    · intro es hes t' ht'
      obtain ⟨a, ha, b, hb, heq⟩ := mem_zipWith_append _ _ es hes
      rw [heq] at ht'
      rcases List.mem_append.mp ht' with h | h
      · exact s3 a ha t' h
      · exact ih3 b hb t' h
    · intro x
      obtain ⟨s4a, s4b, s4c⟩ := s4 x
      obtain ⟨ih4a, ih4b, ih4c⟩ := ih4 x
      have hcnt : target_visit_count dep
          (List.zipWith (· ++ ·) (prune_round dep r cov sol).2
            (prune_rounds dep rs (prune_round dep r cov sol).1 sol).2) x =
          target_visit_count dep (prune_round dep r cov sol).2 x +
          target_visit_count dep
            (prune_rounds dep rs (prune_round dep r cov sol).1 sol).2 x :=
        target_visit_count_zipWith dep _ _ hlen x
      refine ⟨?_, ?_, ?_⟩
      · intro hx
        show target_visit_count dep (List.zipWith _ _ _) x = 0
        rw [hcnt, s4a hx, ih4a (hcov_sub hx)]
      · show target_visit_count dep (List.zipWith _ _ _) x ≤ 1
        rw [hcnt]
        by_cases hxc : x ∈ cov
        · rw [s4a hxc, ih4a (hcov_sub hxc)]
          omega
        · by_cases hx1 : x ∈ (prune_round dep r cov sol).1
          · rw [(s4c hxc).mp hx1, ih4a hx1]
          · have h0 : target_visit_count dep (prune_round dep r cov sol).2 x = 0 := by
              have hne1 : target_visit_count dep (prune_round dep r cov sol).2 x ≠ 1 :=
                fun h1 => hx1 ((s4c hxc).mpr h1)
              omega
            rw [h0]
            omega
      · intro hxc
        show x ∈ (prune_rounds dep rs (prune_round dep r cov sol).1 sol).1 ↔
          target_visit_count dep (List.zipWith _ _ _) x = 1
        rw [hcnt]
        by_cases hx1 : x ∈ (prune_round dep r cov sol).1
        · rw [(s4c hxc).mp hx1, ih4a hx1]
          refine iff_of_true ?_ rfl
          rw [ih1]
          exact Finset.mem_union_left _ hx1
        · have h0 : target_visit_count dep (prune_round dep r cov sol).2 x = 0 := by
            have hne1 : target_visit_count dep (prune_round dep r cov sol).2 x ≠ 1 :=
              fun h1 => hx1 ((s4c hxc).mpr h1)
            have := s4b
            omega
          rw [h0, Nat.zero_add]
          exact ih4c hx1

/-- C3. For every multi-round solution of well-formed tours (each tour
references at least one depot, as `Tour.__init__` guarantees for the
solutions the planner builds), the pruned solution covers exactly the
same set of targets, and no target index appears in the target list of
more than one (agent, round) tour of the pruned solution — the number
of pruned tours containing any given target is at most one. -/
theorem pruning_multiroundsolution_correct (dep : ℕ → Bool)
    (sol : List (List Tour)) (hwf : WFSol dep sol) :
    covered_targets dep (pruning_multiroundsolution dep sol) =
      covered_targets dep sol ∧
    ∀ x : ℕ, target_visit_count dep (pruning_multiroundsolution dep sol) x ≤ 1 := by
  obtain ⟨h1, _, _, h4⟩ :=
    prune_rounds_spec dep (List.range (solMaxRounds sol)) sol ∅ hwf
  have hkey : ∀ x : ℕ,
      x ∈ covered_targets dep sol ↔
        target_visit_count dep (pruning_multiroundsolution dep sol) x = 1 := by
    intro x
    obtain ⟨_, _, h4c⟩ := h4 x
    have hiff := h4c (by simp)
    rw [h1, Finset.empty_union, rounds_cov_range_eq] at hiff
    exact hiff
  constructor
  · ext x
    have hmem1 : x ∈ covered_targets dep (pruning_multiroundsolution dep sol) ↔
        0 < target_visit_count dep (pruning_multiroundsolution dep sol) x :=
      (mem_covered_targets dep _ x).trans
        (target_visit_count_pos_iff dep _ x).symm
    rw [hmem1]
    constructor
    · intro hpos
      refine (hkey x).mpr ?_
      have hle : target_visit_count dep (pruning_multiroundsolution dep sol) x ≤ 1 :=
        (h4 x).2.1
      omega
    · intro hm
      rw [(hkey x).mp hm]
      omega
  · intro x
    exact (h4 x).2.1

/-- Two tours over depot 9: one covering targets 0 and 1, another
covering targets 1 and 2 (the overlap on 1 is pruned). -/
def tourB : Tour := ⟨[(9, 0), (0, 1), (1, 9)]⟩

/-- A tour over depot 9 covering targets 1 and 2. -/
def tourC : Tour := ⟨[(9, 1), (1, 2), (2, 9)]⟩

/-- Witness for C3: a two-drone one-round solution with overlapping
targets is well formed, and the theorem applies to it. -/
theorem pruning_multiroundsolution_correct_witness :
    WFSol (fun n => n == 9) [[tourB], [tourC]] ∧
    covered_targets (fun n => n == 9)
        (pruning_multiroundsolution (fun n => n == 9) [[tourB], [tourC]]) =
      covered_targets (fun n => n == 9) [[tourB], [tourC]] ∧
    ∀ x : ℕ, target_visit_count (fun n => n == 9)
        (pruning_multiroundsolution (fun n => n == 9) [[tourB], [tourC]]) x ≤ 1 := by
  have hwf : WFSol (fun n => n == 9) [[tourB], [tourC]] := by
    intro ts hts t ht
    rcases List.mem_cons.mp hts with h | h
    · subst h
      rcases List.mem_singleton.mp ht with rfl
      simp [tourB]
    · rcases List.mem_singleton.mp (by simpa using h) with rfl
      rcases List.mem_singleton.mp ht with rfl
      simp [tourC]
  exact ⟨hwf, pruning_multiroundsolution_correct (fun n => n == 9) _ hwf⟩

lemma one_le_drone_visit_count (dep : ℕ → Bool) (ts : List Tour) (t : Tour)
    (x : ℕ) (ht : t ∈ ts) (hx : x ∈ t.targets_indexes dep) :
    1 ≤ drone_visit_count dep ts x := by
  have hmem : t ∈ ts.filter (fun t => decide (x ∈ t.targets_indexes dep)) :=
    List.mem_filter.mpr ⟨ht, by simpa using hx⟩
  have : ts.filter (fun t => decide (x ∈ t.targets_indexes dep)) ≠ [] :=
    List.ne_nil_of_mem hmem
  unfold drone_visit_count
  rcases List.exists_cons_of_ne_nil this with ⟨y, ys, hys⟩
  rw [hys]
  simp

lemma drone_le_target_visit_count (dep : ℕ → Bool) (x : ℕ) :
    ∀ (sol : List (List Tour)) (ts : List Tour), ts ∈ sol →
      drone_visit_count dep ts x ≤ target_visit_count dep sol x := by
  intro sol
  induction sol with
  | nil => intro ts h; simp at h
  | cons hd rest ih =>
    intro ts h
    rw [target_visit_count_cons]
    rcases List.mem_cons.mp h with h | h
    · subst h; omega
    · have := ih ts h; omega

lemma two_positions_filter (p : Tour → Bool) :
    ∀ (l : List Tour) (i j : ℕ), i ≠ j → ∀ (a b : Tour),
      l[i]? = some a → l[j]? = some b → p a = true → p b = true →
      2 ≤ (l.filter p).length := by
  intro l
  induction l with
  | nil => intro i j _ a b h1; simp at h1
  | cons hd tl ih =>
    intro i j hij a b h1 h2 hpa hpb
    cases i with
    | zero =>
      cases j with
      | zero => exact absurd rfl hij
      | succ j' =>
        rw [List.getElem?_cons_zero] at h1
        cases h1
        rw [List.getElem?_cons_succ] at h2
        have hbmem : b ∈ tl.filter p :=
          List.mem_filter.mpr ⟨List.getElem?_mem h2, hpb⟩
        rw [List.filter_cons_of_pos hpa]
        have : 1 ≤ (tl.filter p).length := by
          rcases List.exists_cons_of_ne_nil (List.ne_nil_of_mem hbmem) with ⟨y, ys, hys⟩
          rw [hys]; simp
        simp only [List.length_cons]
        omega
    | succ i' =>
      cases j with
      | zero =>
        rw [List.getElem?_cons_zero] at h2
        cases h2
        rw [List.getElem?_cons_succ] at h1
        have hamem : a ∈ tl.filter p :=
          List.mem_filter.mpr ⟨List.getElem?_mem h1, hpa⟩
        rw [List.filter_cons_of_pos hpb]
        have : 1 ≤ (tl.filter p).length := by
          rcases List.exists_cons_of_ne_nil (List.ne_nil_of_mem hamem) with ⟨y, ys, hys⟩
          rw [hys]; simp
        simp only [List.length_cons]
        omega
      | succ j' =>
        rw [List.getElem?_cons_succ] at h1 h2
        have hij' : i' ≠ j' := fun h => hij (by rw [h])
        have h2le := ih i' j' hij' a b h1 h2 hpa hpb
        cases hp : p hd
        · rw [List.filter_cons_of_neg (by simp [hp])]
          exact h2le
        · rw [List.filter_cons_of_pos hp]
          simp only [List.length_cons]
          omega

lemma two_rounds_drone_count (dep : ℕ → Bool) (x : ℕ) (ts : List Tour)
    (r r' : ℕ) (t t' : Tour) (hne : r ≠ r')
    (h1 : ts[r]? = some t) (h2 : ts[r']? = some t')
    (hx1 : x ∈ t.targets_indexes dep) (hx2 : x ∈ t'.targets_indexes dep) :
    2 ≤ drone_visit_count dep ts x :=
  two_positions_filter _ ts r r' hne t t' h1 h2
    (by simpa using hx1) (by simpa using hx2)

lemma two_drones_count (dep : ℕ → Bool) (x : ℕ) :
    ∀ (sol : List (List Tour)) (ts1 ts2 : List Tour),
      ts1 ∈ sol → ts2 ∈ sol → ts1 ≠ ts2 →
      drone_visit_count dep ts1 x + drone_visit_count dep ts2 x ≤
        target_visit_count dep sol x := by
  intro sol
  induction sol with
  | nil => intro ts1 ts2 h; simp at h
  | cons hd rest ih =>
    intro ts1 ts2 h1 h2 hne
    rw [target_visit_count_cons]
    rcases List.mem_cons.mp h1 with ha | ha
    · rcases List.mem_cons.mp h2 with hb | hb
      · exact absurd (ha.trans hb.symm) hne
      · subst ha
        have := drone_le_target_visit_count dep x rest ts2 hb
        omega
    · rcases List.mem_cons.mp h2 with hb | hb
      · subst hb
        have := drone_le_target_visit_count dep x rest ts1 ha
        omega
      · have := ih ts1 ts2 ha hb hne
        omega

lemma pairwise_round_disjoint (dep : ℕ → Bool) :
    ∀ (sol : List (List Tour)),
      (∀ x, target_visit_count dep sol x ≤ 1) → ∀ r : ℕ,
      List.Pairwise (fun ts1 ts2 => ∀ t1 t2, ts1[r]? = some t1 →
        ts2[r]? = some t2 → ∀ x ∈ t1.targets_indexes dep,
          x ∉ t2.targets_indexes dep) sol := by
  intro sol
  induction sol with
  | nil => intro _ r; exact List.Pairwise.nil
  | cons hd rest ih =>
    intro hcnt r
    refine List.Pairwise.cons ?_ (ih (fun x => ?_) r)
    · intro u hu t1 t2 hget1 hget2 x hx1 hx2
      have hd1 : 1 ≤ drone_visit_count dep hd x :=
        one_le_drone_visit_count dep hd t1 x (List.getElem?_mem hget1) hx1
      have hu1 : 1 ≤ drone_visit_count dep u x :=
        one_le_drone_visit_count dep u t2 x (List.getElem?_mem hget2) hx2
      have hle : drone_visit_count dep u x ≤ target_visit_count dep rest x :=
        drone_le_target_visit_count dep x rest u hu
      have := hcnt x
      rw [target_visit_count_cons] at this
      omega
    · have := hcnt x
      rw [target_visit_count_cons] at this
      omega

lemma prune_round_id (dep : ℕ → Bool) (r : ℕ) :
    ∀ (sol : List (List Tour)) (cov : Finset ℕ),
      (∀ ts ∈ sol, ∀ t ∈ ts, PrunedShape dep t) →
      (∀ ts ∈ sol, ∀ t, ts[r]? = some t →
        ∀ x ∈ t.targets_indexes dep, x ∉ cov) →
      List.Pairwise (fun ts1 ts2 => ∀ t1 t2, ts1[r]? = some t1 →
        ts2[r]? = some t2 → ∀ x ∈ t1.targets_indexes dep,
          x ∉ t2.targets_indexes dep) sol →
      prune_round dep r cov sol =
        (cov ∪ round_cov dep r sol,
         sol.map (fun ts =>
           match ts[r]? with
           | some t => [t]
           | none => [])) := by
  intro sol
  induction sol with
  | nil =>
    intro cov _ _ _
    simp [prune_round, round_cov]
  | cons ts rest ih =>
    intro cov hshape hdisj hpair
    obtain ⟨hpair_head, hpair_rest⟩ := List.pairwise_cons.mp hpair
    have hshape_rest : ∀ ts' ∈ rest, ∀ t ∈ ts', PrunedShape dep t :=
      fun ts' h' => hshape ts' (List.mem_cons_of_mem _ h')
    cases hget : ts[r]? with
    | none =>
      have hdisj_rest : ∀ ts' ∈ rest, ∀ t, ts'[r]? = some t →
          ∀ x ∈ t.targets_indexes dep, x ∉ cov :=
        fun ts' h' => hdisj ts' (List.mem_cons_of_mem _ h')
      simp only [prune_round, hget, List.map_cons]
      rw [ih cov hshape_rest hdisj_rest hpair_rest]
      rw [round_cov_cons_none dep r ts rest hget]
    | some t =>
      have htm : t ∈ ts := List.getElem?_mem hget
      have hts : PrunedShape dep t := hshape ts (List.mem_cons_self ts rest) t htm
      have hdisj_head : ∀ x ∈ t.targets_indexes dep, x ∉ cov :=
        hdisj ts (List.mem_cons_self ts rest) t hget
      have hself : prune_tour dep cov t = some t :=
        prune_tour_self dep cov t hts hdisj_head
      have hdisj_rest : ∀ ts' ∈ rest, ∀ u, ts'[r]? = some u →
          ∀ x ∈ u.targets_indexes dep,
            x ∉ cov ∪ (t.targets_indexes dep).toFinset := by
        intro ts' h' u hget' x hx
        intro hmem
        rcases Finset.mem_union.mp hmem with h | h
        · exact hdisj ts' (List.mem_cons_of_mem _ h') u hget' x hx h
        · exact hpair_head ts' h' t u hget hget' x (List.mem_toFinset.mp h) hx
      simp only [prune_round, hget, hself, List.map_cons]
      rw [ih (cov ∪ (t.targets_indexes dep).toFinset) hshape_rest hdisj_rest
        hpair_rest]
      rw [round_cov_cons_some dep r ts rest t hget, Finset.union_assoc]

lemma zipWith_append_map_same {α : Type} (f g : α → List Tour) :
    ∀ l : List α,
      List.zipWith (· ++ ·) (l.map f) (l.map g) = l.map (fun x => f x ++ g x) := by
  intro l
  induction l with
  | nil => rfl
  | cons a l ih => simp [ih]

lemma prune_rounds_snd_id (dep : ℕ → Bool) :
    ∀ (rs : List ℕ) (sol : List (List Tour)) (cov : Finset ℕ),
      (∀ ts ∈ sol, ∀ t ∈ ts, PrunedShape dep t) →
      (∀ x, target_visit_count dep sol x ≤ 1) →
      rs.Nodup →
      (∀ r ∈ rs, ∀ ts ∈ sol, ∀ t, ts[r]? = some t →
        ∀ x ∈ t.targets_indexes dep, x ∉ cov) →
      (prune_rounds dep rs cov sol).2 =
        sol.map (fun ts => rs.flatMap (fun r =>
          match ts[r]? with
          | some t => [t]
          | none => [])) := by
  intro rs
  induction rs with
  | nil =>
    intro sol cov _ _ _ _
    simp [prune_rounds]
  | cons r rs ih =>
    intro sol cov hshape hcnt hnd hdisj
    obtain ⟨hr_not_mem, hnd_rest⟩ := List.nodup_cons.mp hnd
    have hid1 := prune_round_id dep r sol cov hshape
      (fun ts h t => hdisj r (List.mem_cons_self r rs) ts h t)
      (pairwise_round_disjoint dep sol hcnt r)
    have hdisj' : ∀ r' ∈ rs, ∀ ts ∈ sol, ∀ u, ts[r']? = some u →
        ∀ x ∈ u.targets_indexes dep,
          x ∉ cov ∪ round_cov dep r sol := by
      intro r' hr' ts hts u hget x hx
      intro hmem
      rcases Finset.mem_union.mp hmem with h | h
      · exact hdisj r' (List.mem_cons_of_mem _ hr') ts hts u hget x hx h
      · obtain ⟨ts', hts', t', hget', hx'⟩ := (mem_round_cov dep r sol x).mp h
        by_cases heq : ts' = ts
        · subst heq
          have hrne : r ≠ r' := fun hh => hr_not_mem (hh ▸ hr')
          have h2 := two_rounds_drone_count dep x ts' r r' t' u hrne hget' hget hx' hx
          have hle := drone_le_target_visit_count dep x sol ts' hts'
          have := hcnt x
          omega
        · have h1 : 1 ≤ drone_visit_count dep ts' x :=
            one_le_drone_visit_count dep ts' t' x (List.getElem?_mem hget') hx'
          have h2 : 1 ≤ drone_visit_count dep ts x :=
            one_le_drone_visit_count dep ts u x (List.getElem?_mem hget) hx
          have hsum := two_drones_count dep x sol ts' ts hts' hts heq
          have := hcnt x
          omega
    show List.zipWith (· ++ ·) (prune_round dep r cov sol).2
        (prune_rounds dep rs (prune_round dep r cov sol).1 sol).2 =
      sol.map (fun ts => (r :: rs).flatMap (fun r =>
        match ts[r]? with
        | some t => [t]
        | none => []))
    rw [hid1]
    show List.zipWith (· ++ ·)
        (sol.map fun ts => match ts[r]? with | some t => [t] | none => [])
        (prune_rounds dep rs (cov ∪ round_cov dep r sol) sol).2 = _
    rw [ih sol (cov ∪ round_cov dep r sol) hshape hcnt hnd_rest hdisj']
    rw [zipWith_append_map_same]
    refine List.map_congr_left ?_
    intro ts _
    rw [List.flatMap_cons]

lemma range_flatMap_take (ts : List Tour) :
    ∀ n : ℕ,
      (List.range n).flatMap (fun r =>
        match ts[r]? with
        | some t => [t]
        | none => []) = ts.take n := by
  intro n
  induction n with
  | zero => simp
  | succ n ih =>
    rw [List.range_succ, List.flatMap_append, ih, List.flatMap_cons]
    rw [List.take_succ]
    cases hget : ts[n]? <;> simp [hget]

/-- C7. Pruning is idempotent: applying
`pruning_multiroundsolution` to an already pruned solution returns the
same solution — same drones in the same order, and per drone the same
ordered tour list (`Tour.__eq__` compares the edge-index sequences,
which is equality of the `Tour` values here). -/
theorem pruning_multiroundsolution_idempotent (dep : ℕ → Bool)
    (sol : List (List Tour)) (hwf : WFSol dep sol) :
    pruning_multiroundsolution dep (pruning_multiroundsolution dep sol) =
      pruning_multiroundsolution dep sol := by
  obtain ⟨_, _, hshape, h4⟩ :=
    prune_rounds_spec dep (List.range (solMaxRounds sol)) sol ∅ hwf
  have hcnt : ∀ x, target_visit_count dep
      (pruning_multiroundsolution dep sol) x ≤ 1 :=
    fun x => (h4 x).2.1
  have hshape' : ∀ ts ∈ pruning_multiroundsolution dep sol, ∀ t ∈ ts,
      PrunedShape dep t := hshape
  rw [pruning_multiroundsolution, prune_rounds_snd_id dep _ _ ∅ hshape' hcnt
    (List.nodup_range _) (fun r _ ts _ t _ x _ hmem => by simp at hmem)]
  refine (List.map_congr_left ?_).trans (List.map_id _)
  intro ts hts
  rw [range_flatMap_take]
  exact List.take_of_length_le
    (length_le_solMaxRounds (pruning_multiroundsolution dep sol) ts hts)

/-- Witness for C7 on the same two-drone overlapping solution. -/
theorem pruning_multiroundsolution_idempotent_witness :
    WFSol (fun n => n == 9) [[tourB], [tourC]] ∧
    pruning_multiroundsolution (fun n => n == 9)
        (pruning_multiroundsolution (fun n => n == 9) [[tourB], [tourC]]) =
      pruning_multiroundsolution (fun n => n == 9) [[tourB], [tourC]] := by
  have hwf : WFSol (fun n => n == 9) [[tourB], [tourC]] := by
    intro ts hts t ht
    rcases List.mem_cons.mp hts with h | h
    · subst h
      rcases List.mem_singleton.mp ht with rfl
      simp [tourB]
    · rcases List.mem_singleton.mp (by simpa using h) with rfl
      rcases List.mem_singleton.mp ht with rfl
      simp [tourC]
  exact ⟨hwf, pruning_multiroundsolution_idempotent (fun n => n == 9) _ hwf⟩

end TrajPlan
